import Mathlib

/-!
# Verification of the jschema.dev schema-relationship and connection-validation engine

A shallow embedding, in Lean 4, of the core utilities of the data-model builder:

* `src/utils/schemaRelationships.ts` — primitive-schema heuristics, `$ref` path
  resolution, and `getSchemaConnectionRules`;
* the connection validator (`validateConnection`, `resolveTargetSchemaPath`,
  `resolveRefPath`);
* the graph-to-JSON codec (`buildObjectFromInstance`, `exportToJson`,
  `findMatchingSchema`, `importFromJson`);
* persistence validation (`loadBuilderState`) and the instance naming service
  (`generateInstanceId`).

JavaScript data is modelled by the inductive type `Json`; JS objects are
association lists of fields in insertion order.  JS truthiness, `typeof x ===
'object'`, and property access on non-objects are modelled explicitly.  Where a
source function can recurse unboundedly on cyclic catalogs
(`resolveTargetSchemaPath`) or recurses structurally over input data
(`importFromJson`), the embedding is indexed by explicit fuel; the export
builder `buildObjectFromInstance` is defined by well-founded recursion on the
set of not-yet-visited node ids, mirroring the `visited`-set cycle guard of the
source.
-/

namespace JschemaDev

/-- JSON-like JavaScript values.  `obj` keeps fields in insertion order, as JS
objects do; `num` is modelled by integers (the source only compares and stores
numbers, except for the import scores which are modelled by `Rat` separately). -/
inductive Json where
  | null : Json
  | bool (b : Bool) : Json
  | num (n : Int) : Json
  | str (s : String) : Json
  | arr (elems : List Json) : Json
  | obj (fields : List (String × Json)) : Json

/-- Structural equality on `Json`, standing in for the reference identity used
by JS `Map` keys in `importFromJson` (see the comment there). -/
def Json.beq : Json → Json → Bool
  | .null, .null => true
  | .bool a, .bool b => a == b
  | .num a, .num b => a == b
  | .str a, .str b => a == b
  | .arr a, .arr b => beqList a b
  | .obj a, .obj b => beqFields a b
  | _, _ => false
where
  beqList : List Json → List Json → Bool
    | [], [] => true
    | x :: xs, y :: ys => x.beq y && beqList xs ys
    | _, _ => false
  beqFields : List (String × Json) → List (String × Json) → Bool
    | [], [] => true
    | (k, x) :: xs, (l, y) :: ys => k == l && x.beq y && beqFields xs ys
    | _, _ => false

instance : BEq Json := ⟨Json.beq⟩

/-- JS truthiness of a value: `null`, `false`, `0` and `""` are falsy, every
object and array is truthy. -/
def Json.truthy : Json → Bool
  | .null => false
  | .bool b => b
  | .num n => n != 0
  | .str s => s != ""
  | .arr _ => true
  | .obj _ => true

/-- `typeof x === 'object' && x !== null`: objects and arrays. -/
def Json.isObjLike : Json → Bool
  | .arr _ => true
  | .obj _ => true
  | _ => false

/-- A plain (non-array) object. -/
def Json.isStrictObj : Json → Bool
  | .obj _ => true
  | _ => false

/-- An array (`Array.isArray`). -/
def Json.isStrictArr : Json → Bool
  | .arr _ => true
  | _ => false

/-- Property access `x.k` for the (non-numeric) field names the source uses:
defined on objects, `undefined` (`none`) on everything else. -/
def Json.get : Json → String → Option Json
  | .obj fields, k => (fields.find? (fun e => e.1 == k)).map (·.2)
  | _, _ => none

/-- `Object.entries(x)` for objects and arrays (array entries are keyed by
their decimal index, as in JS). -/
def jsObjEntries : Json → List (String × Json)
  | .obj fields => fields
  | .arr elems => (elems.enum.map fun e => (toString e.1, e.2))
  | _ => []

/-- `Object.keys(x)` / the keys tested by `in`, including the index keys of
arrays and strings. -/
def jsKeys : Json → List String
  | .obj fields => fields.map (·.1)
  | .arr elems => (List.range elems.length).map toString
  | .str s => (List.range s.length).map toString
  | _ => []

/-- Truthiness of an optional value (`undefined` is falsy). -/
def truthyOpt : Option Json → Bool
  | some j => j.truthy
  | none => false

/-- The schema catalog: a `Record<string, object>` in insertion order. -/
abbrev Catalog := List (String × Json)

/-- `schemas[key]` (exact lookup). -/
def catFind (cat : Catalog) (key : String) : Option Json :=
  (cat.find? (fun e => e.1 == key)).map (·.2)

/-- Strip a leading character sequence: `some rest` when `pre` is a leading
sequence of `l`.  (The string operations of the source are modelled over
character lists so that concrete runs reduce inside the kernel.) -/
def chopSeqAux : List Char → List Char → Option (List Char)
  | [], l => some l
  | _ :: _, [] => none
  | a :: as, b :: bs => if a = b then chopSeqAux as bs else none

/-- `chopSeqAux` restricted to nonempty separators (the source never splits on
the empty string). -/
def chopSeq (sep l : List Char) : Option (List Char) :=
  match sep with
  | [] => none
  | _ :: _ => chopSeqAux sep l

theorem chopSeqAux_length_le (sep : List Char) :
    ∀ l r, chopSeqAux sep l = some r → r.length ≤ l.length := by
  induction sep with
  | nil => intro l r h; cases h; exact Nat.le_refl _
  | cons a as ih =>
      intro l r h
      cases l with
      | nil => cases h
      | cons b bs =>
          by_cases hab : a = b
          · simp only [chopSeqAux, if_pos hab] at h
            exact Nat.le_succ_of_le (ih bs r h)
          · simp only [chopSeqAux, if_neg hab] at h
            cases h

theorem chopSeq_length_lt (sep l r : List Char) (h : chopSeq sep l = some r) :
    r.length < l.length := by
  cases sep with
  | nil => cases h
  | cons a as =>
      cases l with
      | nil => cases h
      | cons b bs =>
          by_cases hab : a = b
          · simp only [chopSeq, chopSeqAux, if_pos hab] at h
            exact Nat.lt_succ_of_le (chopSeqAux_length_le as bs r h)
          · simp only [chopSeq, chopSeqAux, if_neg hab] at h
            cases h

/-- `String.prototype.split` on a nonempty separator, over character lists:
`acc` is the reversed current chunk.  Structural recursion on a step budget of
`l.length + 1`, which `chopSeq_length_lt` shows is always enough. -/
def splitSeqGo (sep : List Char) : Nat → List Char → List Char → List (List Char)
  | 0, _, acc => [acc.reverse]
  | fuel + 1, l, acc =>
      match chopSeq sep l with
      | some r => acc.reverse :: splitSeqGo sep fuel r []
      | none =>
          match l with
          | [] => [acc.reverse]
          | c :: rest => splitSeqGo sep fuel rest (c :: acc)

/-- JS `s.split(sep)` for a nonempty string separator. -/
def jsSplit (s sep : String) : List String :=
  (splitSeqGo sep.data (s.data.length + 1) s.data []).map (fun l => ⟨l⟩)

/-- JS `s.startsWith(pat)`. -/
def strStartsWith (s pat : String) : Bool :=
  (chopSeqAux pat.data s.data).isSome

/-- JS `s.endsWith(pat)`. -/
def strEndsWith (s pat : String) : Bool :=
  (chopSeqAux pat.data.reverse s.data.reverse).isSome

/-- JS `s.includes(c)` for a single character. -/
def strContainsChar (s : String) (c : Char) : Bool :=
  s.data.contains c

/-- JS `s.toLowerCase()` (ASCII). -/
def strToLower (s : String) : String :=
  ⟨s.data.map Char.toLower⟩

/-- The match of `/^([^#]+)/` (equivalently `s.split('#')[0]`): the longest
leading run of non-`#` characters. -/
def takeUntilHash (s : String) : String :=
  ⟨s.data.takeWhile (fun c => c ≠ '#')⟩

/-- `s.includes(pat)` for a nonempty pattern string. -/
def strContains (s pat : String) : Bool :=
  decide ((jsSplit s pat).length > 1)

/-- `basePath.substring(0, basePath.lastIndexOf('/'))` — the directory part of
a path, `""` when there is no `/`. -/
def baseDirOf (p : String) : String :=
  let parts := jsSplit p "/"
  if parts.length ≤ 1 then "" else String.intercalate "/" parts.dropLast

/-- JS `String.prototype.replace` with a plain-string pattern: replaces only the
first occurrence. -/
def replaceFirst (s pat repl : String) : String :=
  match jsSplit s pat with
  | [] => s
  | [x] => x
  | x :: y :: rest => x ++ repl ++ String.intercalate pat (y :: rest)

/-- Cardinality of a connection rule. -/
inductive Cardinality where
  | one : Cardinality
  | many : Cardinality
deriving DecidableEq, BEq

/-- `ConnectionRule` from `schemaRelationships.ts`. -/
structure ConnectionRule where
  propertyPath : String
  targetSchemaPath : String
  cardinality : Cardinality
  required : Bool
deriving DecidableEq, BEq

/-- `isPrimitiveSchemaPath` from `schemaRelationships.ts`: path-convention
heuristic for primitive schemas. -/
def isPrimitiveSchemaPath (schemaPath : String) : Bool :=
  let lowerPath := strToLower schemaPath
  let primitivePatterns : List String := [
    "/primitives/",
    "/string.schema.json",
    "/integer.schema.json",
    "/number.schema.json",
    "/boolean.schema.json",
    "/binary-flag.schema.json",
    "/numeric-string.schema.json",
    "/non-empty-string.schema.json",
    "/positive-integer.schema.json",
    "/short-code-string.schema.json",
    "/datatype.schema.json",
    "/datatype-enum.schema.json"]
  if primitivePatterns.any (fun pat => strContains lowerPath pat) then true
  else
    let fileName := strToLower ((jsSplit schemaPath "/").getLastD "")
    let singleFieldPatterns : List String := [
      "id.schema.json",
      "name.schema.json",
      "description.schema.json",
      "key.schema.json",
      "value.schema.json"]
    singleFieldPatterns.any (fun pat => strEndsWith fileName pat)

/-- The primitive JSON type names. -/
def primitiveTypes : List String := ["string", "number", "integer", "boolean", "null"]

/-- `isPrimitiveSchema` from `schemaRelationships.ts`: content-based primitive
check.  Non-objects (`!schema || typeof schema !== 'object'`) are not primitive. -/
def isPrimitiveSchema (schema : Json) : Bool :=
  if ¬ schema.isObjLike then false
  else if (match schema.get "type" with
           | some (.str t) => primitiveTypes.contains t
           | _ => false) then true
  else match schema.get "$ref" with
  | some (.str r) =>
      if r != "" then isPrimitiveSchemaPath r
      else allOfCheck schema
  | _ => allOfCheck schema
where
  /-- The `allOf` fallback: primitive iff no branch has `items.$ref`, no branch
  has `properties`, and every branch is a ref-to-primitive or primitive type. -/
  allOfCheck (schema : Json) : Bool :=
    match schema.get "allOf" with
    | some (.arr subs) =>
        let hasItemsRef := subs.any (fun s => truthyOpt (do (← s.get "items").get "$ref"))
        if hasItemsRef then false
        else
          let hasObjectProperties := subs.any (fun s => truthyOpt (s.get "properties"))
          if ¬ hasObjectProperties then
            subs.all (fun s =>
              match s.get "$ref" with
              | some (.str r) => if r != "" then isPrimitiveSchemaPath r else primFallback s
              -- a truthy non-string `$ref` makes the JS code throw inside
              -- `isPrimitiveSchemaPath`; such branches are modelled as
              -- non-primitive
              | some j => if j.truthy then false else primFallback s
              | none => primFallback s)
          else false
    | _ => false
  /-- After a falsy `$ref`: `if (s.type) return primitiveTypes.includes(s.type); return true`. -/
  primFallback (s : Json) : Bool :=
    match s.get "type" with
    | some t => if t.truthy then (match t with
                                  | .str ty => primitiveTypes.contains ty
                                  | _ => false)
                else true
    | none => true

/-- `isArraySchemaWithItems` from `schemaRelationships.ts`. -/
def isArraySchemaWithItems (schema : Json) : Bool :=
  if ¬ schema.isObjLike then false
  else if truthyOpt (do (← schema.get "items").get "$ref") then true
  else match schema.get "allOf" with
  | some (.arr subs) => subs.any (fun s => truthyOpt (do (← s.get "items").get "$ref"))
  | _ => false

/-- `resolveRelativePath` from `schemaRelationships.ts` (identical to the
`./`/`../` branch of `resolveRefPath` in the validator file). -/
def resolveRelativePath (basePath relativePath : String) : String :=
  let baseDir := baseDirOf basePath
  let baseParts := (jsSplit baseDir "/").filter (fun p => p ≠ "")
  let relParts := (jsSplit relativePath "/").filter (fun p => p ≠ "")
  let resultParts := relParts.foldl
    (fun acc part =>
      if part = ".." then acc.dropLast
      else if part = "." then acc
      else acc ++ [part])
    baseParts
  String.intercalate "/" resultParts

/-- JS property assignment `acc[k] = v` on an object built as an association
list: overwrite in place when the key exists, append otherwise. -/
def setKeyJS (a : List (String × Json)) (k : String) (v : Json) : List (String × Json) :=
  if a.any (fun e => e.1 == k) then a.map (fun e => if e.1 == k then (k, v) else e)
  else a ++ [(k, v)]

/-- Object spread `{...acc, ...j}`. -/
def spreadInto (a : List (String × Json)) (j : Json) : List (String × Json) :=
  (jsObjEntries j).foldl (fun acc e => setKeyJS acc e.1 e.2) a

/-- The local `getSchemaProperties` helper of `getSchemaConnectionRules` (and
the exported `getSchemaProperties`): direct `properties` merged with the
`properties` of every `allOf` entry, later entries overriding earlier ones. -/
def mergedProperties (schema : Json) : List (String × Json) :=
  let base :=
    match schema.get "properties" with
    | some p => if p.isObjLike then spreadInto [] p else []
    | none => []
  match schema.get "allOf" with
  | some (.arr subs) =>
      subs.foldl
        (fun acc sub =>
          match sub.get "properties" with
          | some p => if p.isObjLike then spreadInto acc p else acc
          | none => acc)
        base
  | _ => base

/-- `new Set(schema.required || [])`: the string members of the `required`
array (`has` is only ever queried with string property names, so non-string
members are irrelevant and dropped). -/
def requiredSet (schema : Json) : List String :=
  match schema.get "required" with
  | some (.arr elems) => elems.filterMap (fun j => match j with | .str s => some s | _ => none)
  | _ => []

/-- The `$ref`-path resolution shared by all three branches of
`processProperty`: relative refs resolve against the schema path, bare
filenames become siblings, everything else passes through. -/
def resolveDirectRef (schemaPath pre : String) : String :=
  if strStartsWith pre "../" || strStartsWith pre "./" then resolveRelativePath schemaPath pre
  else if ¬ strContainsChar pre '/' then
    let baseDir := baseDirOf schemaPath
    if baseDir = "" then pre else baseDir ++ "/" ++ pre
  else pre

/-- The catalog lookup of `getSchemaConnectionRules` branch 1 / branch 3 (and
of `resolveTargetSchemaPath`): exact lookup first, and when the result is
falsy and a catalog is supplied, a suffix match over the catalog keys
(`key.endsWith(refPath) || refPath.endsWith(key)`), which rewrites the path to
the matched key.  Returns the final path and the looked-up schema. -/
def flexibleLookup (cat : Option Catalog) (refPath : String) : String × Option Json :=
  let exact := match cat with | some c => catFind c refPath | none => none
  if truthyOpt exact then (refPath, exact)
  else
    match cat with
    | none => (refPath, exact)
    | some c =>
        match (c.map (·.1)).find? (fun key => strEndsWith key refPath || strEndsWith refPath key) with
        | some key => (key, catFind c key)
        | none => (refPath, exact)

/-- Branch 1 of `processProperty`: a direct `$ref` property. -/
def directRefRules (schemaPath : String) (cat : Option Catalog) (req : List String)
    (propName : String) (s : String) : List ConnectionRule :=
  -- `propValue.$ref.match(/^([^#]+)/)` with `match[1].endsWith('.json')`
  let pre := takeUntilHash s
  if pre ≠ "" ∧ strEndsWith pre ".json" then
    let refPath0 := resolveDirectRef schemaPath pre
    if isPrimitiveSchemaPath refPath0 then []
    else
      let lk := flexibleLookup cat refPath0
      match lk.2 with
      | some refSchema =>
          if refSchema.truthy then
            if isPrimitiveSchema refSchema then []
            else if isArraySchemaWithItems refSchema then
              [⟨propName, lk.1, .many, req.contains propName⟩]
            else [⟨propName, lk.1, .one, req.contains propName⟩]
          else [⟨propName, lk.1, .one, req.contains propName⟩]
      | none => [⟨propName, lk.1, .one, req.contains propName⟩]
  else []

/-- `propValue.type === ty` for a string literal `ty`. -/
def typeIs (j : Json) (ty : String) : Bool :=
  match j.get "type" with
  | some (.str t) => t == ty
  | _ => false

/-- Branch 2 of `processProperty`: `type: 'array'` with `items.$ref` (no
suffix-match fallback in this branch). -/
def arrayItemsRules (schemaPath : String) (cat : Option Catalog) (req : List String)
    (propName : String) (propValue : Json) : List ConnectionRule :=
  if typeIs propValue "array" then
    match propValue.get "items" with
    | some items =>
        if items.truthy then
          match items.get "$ref" with
          | some (.str s) =>
              if s ≠ "" then
                let pre := takeUntilHash s
                if pre ≠ "" ∧ strEndsWith pre ".json" then
                  let refPath := resolveDirectRef schemaPath pre
                  if isPrimitiveSchemaPath refPath then []
                  else
                    let exact := match cat with | some c => catFind c refPath | none => none
                    if truthyOpt exact ∧ isPrimitiveSchema (exact.getD .null) then []
                    else [⟨propName, refPath, .many, req.contains propName⟩]
                else []
              else []
          | _ => []
        else []
    | none => []
  else []

/-- Branch 3 of `processProperty`: the loop over `patternProperties` entries,
emitting at most one `many` rule (first pattern with a usable `$ref` wins). -/
def patternLoop (schemaPath : String) (cat : Option Catalog) (req : List String)
    (propName : String) : List (String × Json) → List ConnectionRule
  | [] => []
  | (_, patternDef) :: rest =>
      match patternDef.get "$ref" with
      | some (.str s) =>
          if s ≠ "" then
            let pre := takeUntilHash s
            if pre ≠ "" ∧ strEndsWith pre ".json" then
              let refPath0 := resolveDirectRef schemaPath pre
              if isPrimitiveSchemaPath refPath0 then
                patternLoop schemaPath cat req propName rest
              else
                let lk := flexibleLookup cat refPath0
                if truthyOpt lk.2 ∧ isPrimitiveSchema (lk.2.getD .null) then
                  patternLoop schemaPath cat req propName rest
                else [⟨propName, lk.1, .many, req.contains propName⟩]
            else patternLoop schemaPath cat req propName rest
          else patternLoop schemaPath cat req propName rest
      | _ => patternLoop schemaPath cat req propName rest

/-- Branch 3 guard: `type: 'object'` with truthy `patternProperties`. -/
def patternPropertyRules (schemaPath : String) (cat : Option Catalog) (req : List String)
    (propName : String) (propValue : Json) : List ConnectionRule :=
  if typeIs propValue "object" then
    match propValue.get "patternProperties" with
    | some pp =>
        if pp.truthy then patternLoop schemaPath cat req propName (jsObjEntries pp)
        else []
    | none => []
  else []

/-- `processProperty` from `getSchemaConnectionRules`.  Branch 1 returns
early; branches 2 and 3 are guarded by mutually exclusive `type` checks. -/
def processProperty (schemaPath : String) (cat : Option Catalog) (req : List String)
    (propName : String) (propValue : Json) : List ConnectionRule :=
  if ¬ propValue.isObjLike then []
  else
    match propValue.get "$ref" with
    | some (.str s) =>
        if s ≠ "" then directRefRules schemaPath cat req propName s
        else arrayItemsRules schemaPath cat req propName propValue ++
             patternPropertyRules schemaPath cat req propName propValue
    | _ =>
        arrayItemsRules schemaPath cat req propName propValue ++
        patternPropertyRules schemaPath cat req propName propValue

/-- `getSchemaConnectionRules` from `schemaRelationships.ts`. -/
def getSchemaConnectionRules (schema : Json) (schemaPath : String) (cat : Option Catalog) :
    List ConnectionRule :=
  let req := requiredSet schema
  (mergedProperties schema).flatMap (fun e => processProperty schemaPath cat req e.1 e.2)

/-- `resolveRefPath` from the connection validator: strips a `#` fragment,
resolves `./`/`../` refs against the base path's directory, turns bare
filenames into siblings, and passes everything else through. -/
def resolveRefPath (ref basePath : String) : String :=
  let refPath := takeUntilHash ref
  if strStartsWith refPath "../" || strStartsWith refPath "./" then
    let baseDir := baseDirOf basePath
    let baseParts := (jsSplit baseDir "/").filter (fun p => p ≠ "")
    let relParts := (jsSplit refPath "/").filter (fun p => p ≠ "")
    let resultParts := relParts.foldl
      (fun acc part =>
        if part = ".." then acc.dropLast
        else if part = "." then acc
        else acc ++ [part])
      baseParts
    String.intercalate "/" resultParts
  else if ¬ strContainsChar refPath '/' then
    let baseDir := baseDirOf basePath
    if baseDir = "" then refPath else baseDir ++ "/" ++ refPath
  else refPath

/-- `[...new Set(results)]`: deduplication keeping first occurrences. -/
def dedupFirst (l : List String) : List String :=
  l.foldl (fun acc x => if acc.contains x then acc else acc ++ [x]) []

/-- `resolveTargetSchemaPath` from the connection validator.  The source
function recurses unboundedly (it has no cycle guard, so a cyclic catalog makes
it diverge); the embedding is indexed by fuel, and every theorem below holds
for every fuel value.  At fuel 0 the remaining recursion is approximated by the
bare path. -/
def resolveTargetSchemaPath : Nat → String → Catalog → List String
  | 0, schemaPath, _ => [schemaPath]
  | fuel + 1, schemaPath, schemas =>
      let lk := flexibleLookup (some schemas) schemaPath
      match lk.2 with
      | none => [schemaPath]
      | some schema =>
          if ¬ schema.truthy then [schemaPath]
          else
            let actualPath := lk.1
            let itemsPart :=
              match (do (← schema.get "items").get "$ref") with
              | some (.str r) =>
                  if r ≠ "" then
                    let itemsRef := resolveRefPath r actualPath
                    itemsRef :: resolveTargetSchemaPath fuel itemsRef schemas
                  else []
              | _ => []
            let allOfPart :=
              match schema.get "allOf" with
              | some (.arr subs) =>
                  subs.flatMap (fun sub =>
                    match (do (← sub.get "items").get "$ref") with
                    | some (.str r) =>
                        if r ≠ "" then
                          let itemsRef := resolveRefPath r actualPath
                          itemsRef :: resolveTargetSchemaPath fuel itemsRef schemas
                        else []
                    | _ => [])
              | _ => []
            let anyOfPart :=
              match schema.get "anyOf" with
              | some (.arr subs) =>
                  subs.flatMap (fun sub =>
                    match sub.get "$ref" with
                    | some (.str r) =>
                        if r ≠ "" then
                          let subRef := resolveRefPath r actualPath
                          subRef :: resolveTargetSchemaPath fuel subRef schemas
                        else []
                    | _ => [])
              | _ => []
            let oneOfPart :=
              match schema.get "oneOf" with
              | some (.arr subs) =>
                  subs.flatMap (fun sub =>
                    match sub.get "$ref" with
                    | some (.str r) =>
                        if r ≠ "" then
                          let subRef := resolveRefPath r actualPath
                          subRef :: resolveTargetSchemaPath fuel subRef schemas
                        else []
                    | _ => [])
              | _ => []
            dedupFirst (actualPath :: (itemsPart ++ allOfPart ++ anyOfPart ++ oneOfPart))

/-- `DataInstance` from `builderTypes.ts` (only `schemaPath` is consulted by
the validator; the other fields are carried for fidelity). -/
structure DataInstance where
  id : String
  schemaPath : String
  position : Int × Int
  data : Json

/-- `DataConnection` from `builderTypes.ts`. -/
structure DataConnection where
  id : String
  sourceId : String
  targetId : String
  propertyPath : String

/-- `instances.get(key)` on the instance `Map`. -/
def mapGet (m : List (String × DataInstance)) (key : String) : Option DataInstance :=
  (m.find? (fun e => e.1 == key)).map (·.2)

/-- The failure cases of `validateConnection`; the source reports each as a
distinct `reason` message string, modelled here as an enumeration. -/
inductive VReason where
  | sourceInstanceNotFound
  | targetInstanceNotFound
  | sourceSchemaNotFound
  | noRuleForProperty
  | targetSchemaMismatch
  | oneAlreadyConnected
  | selfLoop
  | duplicateConnection
deriving DecidableEq, BEq

/-- `validateConnection` from the connection validator (the version that
resolves array/union targets through `resolveTargetSchemaPath`).  `none` is the
`{valid: true}` outcome; `some r` is `{valid: false, reason: r}`. -/
def validateConnection (fuel : Nat) (sourceInstanceId targetInstanceId propertyPath : String)
    (existingConnections : List DataConnection) (schemas : Catalog)
    (instances : List (String × DataInstance)) : Option VReason :=
  match mapGet instances sourceInstanceId with
  | none => some .sourceInstanceNotFound
  | some sourceInstance =>
  match mapGet instances targetInstanceId with
  | none => some .targetInstanceNotFound
  | some targetInstance =>
  match catFind schemas sourceInstance.schemaPath with
  | none => some .sourceSchemaNotFound
  | some sourceSchema =>
  if ¬ sourceSchema.truthy then some .sourceSchemaNotFound
  else
  match (getSchemaConnectionRules sourceSchema sourceInstance.schemaPath (some schemas)).find?
      (fun r => r.propertyPath == propertyPath) with
  | none => some .noRuleForProperty
  | some rule =>
  if ¬ (resolveTargetSchemaPath fuel rule.targetSchemaPath schemas).contains
      targetInstance.schemaPath then some .targetSchemaMismatch
  else if rule.cardinality == .one &&
      existingConnections.any (fun conn =>
        conn.sourceId == sourceInstanceId && conn.propertyPath == propertyPath) then
    some .oneAlreadyConnected
  else if sourceInstanceId == targetInstanceId then some .selfLoop
  else if existingConnections.any (fun conn =>
      conn.sourceId == sourceInstanceId && conn.targetId == targetInstanceId &&
      conn.propertyPath == propertyPath) then
    some .duplicateConnection
  else none

/-- Resolved-target set as worded by the specification (§4.4): starting from
`targetSchemaPath`, "always include itself"; if the fetched schema has
`items.$ref` (directly or in any `allOf` branch), recursively include the
resolved items path and its own resolved-targets; if it has `anyOf`/`oneOf`
branches with `$ref`, recursively include each; duplicates removed.  This
definition follows the specification's words and is compared against the
source's `resolveTargetSchemaPath`, which deviates from it when the queried
path is absent from the catalog but suffix-matches a catalog key. -/
def specResolveTargets : Nat → String → Catalog → List String
  | 0, schemaPath, _ => [schemaPath]
  | fuel + 1, schemaPath, schemas =>
      let rest :=
        match catFind schemas schemaPath with
        | some schema =>
            let itemsRefs :=
              (match (do (← schema.get "items").get "$ref") with
               | some (.str r) => if r ≠ "" then [r] else []
               | _ => []) ++
              (match schema.get "allOf" with
               | some (.arr subs) =>
                   subs.flatMap (fun sub =>
                     match (do (← sub.get "items").get "$ref") with
                     | some (.str r) => if r ≠ "" then [r] else []
                     | _ => [])
               | _ => [])
            let unionRefs :=
              (match schema.get "anyOf" with
               | some (.arr subs) =>
                   subs.flatMap (fun sub =>
                     match sub.get "$ref" with
                     | some (.str r) => if r ≠ "" then [r] else []
                     | _ => [])
               | _ => []) ++
              (match schema.get "oneOf" with
               | some (.arr subs) =>
                   subs.flatMap (fun sub =>
                     match sub.get "$ref" with
                     | some (.str r) => if r ≠ "" then [r] else []
                     | _ => [])
               | _ => [])
            (itemsRefs ++ unionRefs).flatMap (fun r =>
              let resolved := resolveRefPath r schemaPath
              resolved :: specResolveTargets fuel resolved schemas)
        | none => []
      dedupFirst (schemaPath :: rest)

/-- The directory-segment resolution described by the specification's §4.1:
`..` pops one segment, `.` is a no-op, empty segments are dropped. -/
def specSegResolve (baseDir rel : String) : String :=
  let start := (jsSplit baseDir "/").filter (fun p => p ≠ "")
  let finish := (jsSplit rel "/").foldl
    (fun acc seg =>
      if seg = "" then acc
      else if seg = "." then acc
      else if seg = ".." then acc.dropLast
      else acc ++ [seg])
    start
  String.intercalate "/" finish

/-- `resolve(basePath, ref)` as worded by the specification's §4.1, for
comparison with the source's `resolveRefPath`. -/
def specResolveRef (basePath ref : String) : String :=
  let remainder := takeUntilHash ref
  if strStartsWith remainder "./" ∨ strStartsWith remainder "../" then
    specSegResolve (baseDirOf basePath) remainder
  else if ¬ strContainsChar remainder '/' then
    let dir := baseDirOf basePath
    if dir = "" then remainder else dir ++ "/" ++ remainder
  else remainder

/-- The per-node validation of `loadBuilderState`:
`!node.id || !node.position || !node.data?.schemaPath || !node.data?.instanceId`
fails the record. -/
def nodeRecordOk (node : Json) : Bool :=
  truthyOpt (node.get "id") && truthyOpt (node.get "position") &&
    truthyOpt ((node.get "data").bind (fun d => d.get "schemaPath")) &&
    truthyOpt ((node.get "data").bind (fun d => d.get "instanceId"))

/-- The per-edge validation of `loadBuilderState`:
`!edge.id || !edge.source || !edge.target` fails the record. -/
def edgeRecordOk (edge : Json) : Bool :=
  truthyOpt (edge.get "id") && truthyOpt (edge.get "source") &&
    truthyOpt (edge.get "target")

/-- `loadBuilderState` from `builderStorage.ts`, modelled on the parsed value
of the stored string (`none` = no stored state; `JSON.parse` failures are
caught and also yield `null`).  The `localStorage` access and the
`clearBuilderState` side effect are at the storage boundary and outside the
state transformation modelled here. -/
def loadBuilderState (stored : Option Json) : Option Json :=
  match stored with
  | none => none
  | some state =>
      if ¬ state.truthy then none
      else
        match state.get "nodes", state.get "edges" with
        | some (.arr nodes), some (.arr edges) =>
            if nodes.all nodeRecordOk && edges.all edgeRecordOk then some state else none
        | _, _ => none

/-- The per-stem counters of `builderTypes.ts` (`instanceCounters`), as a total
function with default 0 (`instanceCounters.get(baseName) || 0`). -/
abbrev CounterMap := String → Nat

/-- The stem derivation of `generateInstanceId` from `builderTypes.ts`: the
file name of the path (`split('/').pop() || schemaPath`) with the first
occurrence of `'.schema.json'`, then of `'.json'`, removed (JS string
`replace`); `toString` on the counter is `Nat.repr`. -/
def instanceBaseName (schemaPath : String) : String :=
  let fileName0 := (jsSplit schemaPath "/").getLastD ""
  let fileName := if fileName0 = "" then schemaPath else fileName0
  replaceFirst (replaceFirst fileName ".schema.json" "") ".json" ""

/-- `generateInstanceId`, continued: bump the stem's counter and render
`"{base}-{n}"`. -/
def generateInstanceId (counters : CounterMap) (schemaPath : String) : String × CounterMap :=
  let baseName := instanceBaseName schemaPath
  let newCount := counters baseName + 1
  (baseName ++ "-" ++ Nat.repr newCount,
   fun b => if b = baseName then newCount else counters b)

/-- A sequence of `generateInstanceId` calls with no intervening counter reset:
returns the ids issued, in order. -/
def runGen (counters : CounterMap) : List String → List String
  | [] => []
  | p :: ps =>
      let r := generateInstanceId counters p
      r.1 :: runGen r.2 ps

/-- A React-Flow node as consumed by the export codec: only `id`,
`data.schemaPath` and `data.values` are read (`node.data?.schemaPath` may be
missing, and a missing `values` reads as `{}`). -/
structure BNode where
  id : String
  schemaPath : Option String
  values : List (String × Json)

/-- A React-Flow edge as consumed by the export codec: `source`, `target` and
`sourceHandle` (the property path, `edge.sourceHandle || ''`). -/
structure BEdge where
  source : String
  target : String
  sourceHandle : Option String

/-- `ExportOptions` from the export codec. -/
structure ExportOptions where
  includeMetadata : Bool
  rootInstanceId : Option String

/-- `getDefaultValue` from the export codec. -/
def getDefaultValue (propertyDef : Json) : Json :=
  if ¬ propertyDef.truthy then .null
  else match propertyDef.get "default" with
  | some d => d
  | none =>
      match propertyDef.get "type" with
      | some (.str "array") => .arr []
      | some (.str "object") => .obj []
      | _ => .null

/-- `findRootInstances`: nodes that are no edge's target. -/
def findRootInstances (nodes : List BNode) (edges : List BEdge) : List String :=
  let targetIds := edges.map (·.target)
  (nodes.filter (fun node => ¬ targetIds.contains node.id)).map (·.id)

/-- `getInstanceConnections`: outgoing edges of a node. -/
def getInstanceConnections (nodeId : String) (edges : List BEdge) : List BEdge :=
  edges.filter (fun edge => edge.source == nodeId)

/-- The fixed context of an export traversal. -/
structure BCtx where
  nodes : List BNode
  edges : List BEdge
  schemas : Catalog
  includeMetadata : Bool

/-- Termination measure for the export builder: the number of catalog nodes
not yet in the `visited` set. -/
def unvisitedCount (nodes : List BNode) (visited : List String) : Nat :=
  (nodes.filter (fun n => !(visited.contains n.id))).length

/-- Filtering with a stronger predicate that excludes a member satisfying the
weaker one is strictly shorter (used only for the termination measure). -/
theorem length_filter_lt_length_filter {A : Type} (l : List A) (q p : A -> Bool)
    (himp : forall x, q x = true -> p x = true) (x : A) (hx : x ∈ l)
    (hpx : p x = true) (hqx : q x = false) :
    (l.filter q).length < (l.filter p).length := by
  induction l with
  | nil => cases hx
  | cons a l ih =>
      rcases List.mem_cons.mp hx with rfl | hmem
      · rw [List.filter_cons_of_pos hpx]
        rw [List.filter_cons_of_neg (by simp [hqx])]
        exact Nat.lt_succ_of_le ((List.monotone_filter_right l himp).length_le)
      · by_cases hqa : q a = true
        · rw [List.filter_cons_of_pos (himp a hqa), List.filter_cons_of_pos hqa]
          exact Nat.succ_lt_succ (ih hmem)
        · rw [List.filter_cons_of_neg (by simp [hqa])]
          by_cases hpa : p a = true
          · rw [List.filter_cons_of_pos hpa]
            exact Nat.lt_succ_of_lt (ih hmem)
          · rw [List.filter_cons_of_neg (by simp [hpa])]
            exact ih hmem

/-- Adding a found, unvisited node id to `visited` strictly decreases the
measure. -/
theorem unvisitedCount_cons_lt (nodes : List BNode) (visited : List String)
    (nodeId : String) (node : BNode)
    (hfind : nodes.find? (fun n => n.id == nodeId) = some node)
    (hvis : ¬ (visited.contains nodeId = true)) :
    unvisitedCount nodes (nodeId :: visited) < unvisitedCount nodes visited := by
  have hmem : node ∈ nodes := List.mem_of_find?_eq_some hfind
  have hid : node.id = nodeId := by
    have := List.find?_some hfind
    simpa using this
  have hvis' : visited.contains nodeId = false := (Bool.not_eq_true _) ▸ hvis
  refine length_filter_lt_length_filter nodes _ _ ?_ node hmem ?_ ?_
  · intro x hx
    simp only [List.contains_cons, Bool.not_eq_true', Bool.or_eq_false_iff] at hx
    rw [hx.2]
    rfl
  · rw [hid, hvis']
    rfl
  · simp [hid]

/-- Growing `visited` can only shrink the measure. -/
theorem unvisitedCount_append_le (nodes : List BNode) (visited adds : List String) :
    unvisitedCount nodes (adds ++ visited) ≤ unvisitedCount nodes visited := by
  refine List.Sublist.length_le (List.monotone_filter_right nodes ?_)
  intro n h
  simp only [List.contains, List.elem_eq_mem, Bool.not_eq_true', decide_eq_false_iff_not]
    at h ⊢
  exact fun hin => h (List.mem_append_right _ hin)

/-- `buildObjectFromInstance` from the export codec, with the mutated
`visited` set threaded explicitly: the second component of the result is the
list of node ids newly added to `visited` during the call (the JS function
mutates the set in place, so its final contents are `additions ++ visited`).
The JS recursion carries no explicit bound — its termination rests on the
`visited` cycle guard; the embedding is structural on a fuel argument, and
`buildObject_fuel_adequate` below proves that any fuel exceeding the number of
unvisited nodes yields one and the same result, which is exactly the
termination argument of the source.  The property loop (`one`-cardinality
children share and extend the caller's `visited`; `many`-cardinality children
each receive the current set as-is, the JS `new Set(visited)` copy) is the
`foldl` over the schema's `properties` entries. -/
def buildObject : Nat → BCtx → String → List String → Option Json × List String
  | 0, _, _, _ => (none, [])
  | fuel + 1, ctx, nodeId, visited =>
      if visited.contains nodeId then (none, [])
      else
        match ctx.nodes.find? (fun n => n.id == nodeId) with
        | none => (none, [nodeId])
        | some node =>
            match node.schemaPath with
            | none => (none, [nodeId])
            | some schemaPath =>
                if schemaPath = "" then (none, [nodeId])
                else
                  match catFind ctx.schemas schemaPath with
                  | none => (none, [nodeId])
                  | some schema =>
                      if ¬ schema.truthy then (none, [nodeId])
                      else
                        let meta :=
                          if ctx.includeMetadata then
                            [("_schemaPath", Json.str schemaPath),
                             ("_instanceId", Json.str nodeId)]
                          else []
                        let connectionRules := getSchemaConnectionRules schema schemaPath none
                        let outgoing := getInstanceConnections nodeId ctx.edges
                        let propEntries :=
                          match schema.get "properties" with
                          | some p => if p.isObjLike then jsObjEntries p else []
                          | none => []
                        let v1 := nodeId :: visited
                        let built := propEntries.foldl
                          (fun acc e =>
                            let visNow := acc.2 ++ v1
                            match connectionRules.find? (fun r => r.propertyPath == e.1) with
                            | some rule =>
                                let conns := outgoing.filter
                                  (fun ed => (ed.sourceHandle.getD "") == e.1)
                                match rule.cardinality with
                                | .one =>
                                    match conns with
                                    | [] => (acc.1 ++ [(e.1, Json.null)], acc.2)
                                    | c :: _ =>
                                        let child := buildObject fuel ctx c.target visNow
                                        (acc.1 ++ [(e.1, child.1.getD .null)],
                                         child.2 ++ acc.2)
                                | .many =>
                                    let items := conns.filterMap
                                      (fun c => (buildObject fuel ctx c.target visNow).1)
                                    (acc.1 ++ [(e.1, Json.arr items)], acc.2)
                            | none =>
                                let value :=
                                  match node.values.find? (fun v => v.1 == e.1) with
                                  | some v => v.2
                                  | none => getDefaultValue e.2
                                (acc.1 ++ [(e.1, value)], acc.2))
                          ([], [])
                        (some (.obj (meta ++ built.1)), built.2 ++ [nodeId])

/-- `buildObjectFromInstance` with the JS surface: returns the built value and
the final contents of the (mutated) `visited` set. -/
def buildObjectFromInstance (fuel : Nat) (ctx : BCtx) (nodeId : String)
    (visited : List String) : Option Json × List String :=
  let r := buildObject fuel ctx nodeId visited
  (r.1, r.2 ++ visited)

/-- The roots phase of `exportToJson`: root instances (fallback: every node),
each built from a fresh `visited` set; a single non-null result is returned
bare, otherwise an array. -/
def exportRoots (fuel : Nat) (ctx : BCtx) : Json :=
  let rootIds := findRootInstances ctx.nodes ctx.edges
  let idsToExport := if rootIds.isEmpty then ctx.nodes.map (·.id) else rootIds
  let results := idsToExport.filterMap (fun rootId => (buildObject fuel ctx rootId []).1)
  match results with
  | [r] => r
  | rs => .arr rs

/-- `exportToJson` from the export codec. -/
def exportToJson (fuel : Nat) (nodes : List BNode) (edges : List BEdge) (schemas : Catalog)
    (options : ExportOptions) : Json :=
  if nodes.isEmpty then .arr []
  else
    let ctx : BCtx := ⟨nodes, edges, schemas, options.includeMetadata⟩
    match options.rootInstanceId with
    | some rootId =>
        -- `if (options?.rootInstanceId)`: the empty string is falsy
        if rootId = "" then exportRoots fuel ctx
        else
          match (buildObject fuel ctx rootId []).1 with
          | some j => j
          | none => .obj []
    | none => exportRoots fuel ctx

/-- The non-metadata keys of a data object (`Object.keys(data)` filtered of
`_`-prefixed keys). -/
def dataKeysOf (data : Json) : List String :=
  (jsKeys data).filter (fun k => !(strStartsWith k "_"))

/-- Whether a catalog schema participates in `findMatchingSchema` scoring:
truthy `properties`, `type === 'object'`, and every `required` member present
in the data (`prop in data`, unfiltered keys). -/
def fmsQualifies (data : Json) (schema : Json) : Bool :=
  truthyOpt (schema.get "properties") && typeIs schema "object" &&
    (match schema.get "required" with
     | some (.arr elems) =>
         (elems.filterMap (fun j => match j with | .str s => some s | _ => none)).all
           (fun p => (jsKeys data).contains p)
     | _ => true)

/-- The soft score of `findMatchingSchema`:
`|dataKeys ∩ schemaProps| / max(|dataKeys|, |schemaProps|)`, kept as an
unreduced numerator/denominator pair.  JS computes the quotient as a floating
number, with `0/0 = NaN` when both key sets are empty; the comparison helpers
below reproduce the number comparisons (including their NaN behaviour)
exactly on these pairs. -/
def fmsScore (data : Json) (schema : Json) : Nat × Nat :=
  let dataKeys := dataKeysOf data
  let schemaProps := jsKeys ((schema.get "properties").getD .null)
  let matching := dataKeys.filter (fun k => schemaProps.contains k)
  (matching.length, max dataKeys.length schemaProps.length)

/-- `a/b > c/d` as JS evaluates it on the scores above (`NaN`, i.e. a zero
denominator, compares false). -/
def scoreGtJS (s b : Nat × Nat) : Bool :=
  s.2 != 0 && b.2 != 0 && decide (s.1 * b.2 > b.1 * s.2)

/-- `a/b >= 0.5` as JS evaluates it (`NaN` compares false). -/
def scoreGeHalfJS (s : Nat × Nat) : Bool :=
  s.2 != 0 && decide (2 * s.1 ≥ s.2)

/-- The catalog fold of `findMatchingSchema`, tracking the best match
(`score > bestMatch.score` to replace, so the first maximum wins). -/
def fmsGo (data : Json) : List (String × Json) → Option (String × (Nat × Nat)) →
    Option (String × (Nat × Nat))
  | [], best => best
  | (schemaPath, schema) :: rest, best =>
      if fmsQualifies data schema then
        let score := fmsScore data schema
        let best' :=
          match best with
          | none => some (schemaPath, score)
          | some b => if scoreGtJS score b.2 then some (schemaPath, score) else some b
        fmsGo data rest best'
      else fmsGo data rest best

/-- `findMatchingSchema` from the import codec: best-scoring qualifying
schema, requiring a score of at least `0.5`. -/
def findMatchingSchema (data : Json) (schemas : Catalog) : Option (String × (Nat × Nat)) :=
  match fmsGo data schemas none with
  | some b => if scoreGeHalfJS b.2 then some b else none
  | none => none

/-- A node produced by the import codec (`type: 'builderNode'` is constant;
presentational fields are derived and elided). -/
structure ImportNode where
  id : String
  position : Int × Int
  schemaPath : String
  schemaTitle : String
  values : List (String × Json)

/-- An edge produced by the import codec.  The styling derived from `isArray`
(colors, labels) is presentational and elided; `targetHandle` is the constant
`'target'`. -/
structure ImportEdge where
  id : String
  source : String
  target : String
  sourceHandle : String
  isArray : Bool

/-- The mutable state threaded through `importFromJson`: produced nodes and
edges, accumulated errors (the source pushes a message string naming the
offending object; the entry here records that object), the
data-object-to-instance-id map, and the naming counters.  The JS `instanceMap`
keys by object reference identity; data parsed from JSON text is a tree in
which distinct subobjects are distinct references, modelled here by structural
equality (the theorems below only use structurally distinct sibling objects,
for which the two coincide). -/
structure ImportState where
  nodes : List ImportNode
  edges : List ImportEdge
  errors : List Json
  instMap : List (Json × String)
  counters : CounterMap

/-- Grid constants of the import layout. -/
def NODE_WIDTH : Int := 320
/-- Grid constants of the import layout. -/
def NODE_HEIGHT : Int := 200
/-- Grid constants of the import layout. -/
def HORIZONTAL_GAP : Int := 100
/-- Grid constants of the import layout. -/
def VERTICAL_GAP : Int := 80

/-- `createEdge` from the import codec (styling elided, see `ImportEdge`). -/
def createEdge (id source target sourceHandle : String) (isArray : Bool) : ImportEdge :=
  ⟨id, source, target, sourceHandle, isArray⟩

/-- The edge id `"e-{parent}-{child}-{property}"`. -/
def importEdgeId (parentId childId propertyPath : String) : String :=
  "e-" ++ parentId ++ "-" ++ childId ++ "-" ++ propertyPath

/-- `schema.title || fileName.replace('.schema.json','') || 'Unknown'`. -/
def schemaTitleOf (schema : Json) (schemaPath : String) : String :=
  match schema.get "title" with
  | some (.str t) => if t ≠ "" then t else schemaTitleFallback schemaPath
  | _ => schemaTitleFallback schemaPath
where
  schemaTitleFallback (schemaPath : String) : String :=
    let base := replaceFirst ((jsSplit schemaPath "/").getLastD "") ".schema.json" ""
    if base = "" then "Unknown" else base

/-- `createNodeFromData` from `importFromJson`, threading the imperative state
explicitly.  The JS recursion is structural over the parsed JSON tree; the
embedding is structural on a fuel argument (any fuel exceeding the nesting
depth of the data gives the JS result).  The loop over the connection rules
(tracking `childIndex`) and the inner loop over array members are the `foldl`s.
Returns the created (or reused) instance id, or `none` when no schema
matched. -/
def createNodeFromData (schemas : Catalog) :
    Nat → Json → (Int × Int) → Option (String × String) → ImportState →
    Option String × ImportState
  | 0, _, _, _, st => (none, st)
  | fuel + 1, dataObj, position, parent, st =>
      -- reference-identity map hit: reuse the existing instance
      match (st.instMap.find? (fun e => e.1 == dataObj)).map (·.2) with
      | some existingId =>
          let st' :=
            match parent with
            | some (parentId, propertyPath) =>
                let edgeId := importEdgeId parentId existingId propertyPath
                if st.edges.any (fun e => e.id == edgeId) then st
                else { st with edges :=
                  st.edges ++ [createEdge edgeId parentId existingId propertyPath false] }
            | none => st
          (some existingId, st')
      | none =>
          match findMatchingSchema dataObj schemas with
          | none => (none, { st with errors := st.errors ++ [dataObj] })
          | some m =>
              let schemaPath := m.1
              let schema := (catFind schemas schemaPath).getD .null
              let gen := generateInstanceId st.counters schemaPath
              let instanceId := gen.1
              let st := { st with counters := gen.2,
                                  instMap := st.instMap ++ [(dataObj, instanceId)] }
              let schemaTitle := schemaTitleOf schema schemaPath
              let connectionRules := getSchemaConnectionRules schema schemaPath none
              let refProps := connectionRules.map (·.propertyPath)
              let values := (jsObjEntries dataObj).filter
                (fun e => !(strStartsWith e.1 "_") && !(refProps.contains e.1))
              let node : ImportNode :=
                ⟨instanceId, position, schemaPath, schemaTitle, values⟩
              let st := { st with nodes := st.nodes ++ [node] }
              let st :=
                match parent with
                | some (parentId, propertyPath) =>
                    let isArray :=
                      match connectionRules.find? (fun r => r.propertyPath == propertyPath) with
                      | some r => r.cardinality == .many
                      | none => false
                    let edgeId := importEdgeId parentId instanceId propertyPath
                    { st with edges :=
                        st.edges ++ [createEdge edgeId parentId instanceId propertyPath isArray] }
                | none => st
              let final := connectionRules.foldl
                (fun (acc : Int × ImportState) rule =>
                  match dataObj.get rule.propertyPath with
                  | none => acc
                  | some .null => acc
                  | some nestedValue =>
                      let childX := position.1 + NODE_WIDTH + HORIZONTAL_GAP
                      if rule.cardinality == .one && nestedValue.isStrictObj then
                        let childY := position.2 + acc.1 * (NODE_HEIGHT + VERTICAL_GAP)
                        let r := createNodeFromData schemas fuel nestedValue (childX, childY)
                          (some (instanceId, rule.propertyPath)) acc.2
                        (acc.1 + 1, r.2)
                      else if rule.cardinality == .many && nestedValue.isStrictArr then
                        let items := match nestedValue with | .arr xs => xs | _ => []
                        let after := (items.foldl
                          (fun (inner : Int × ImportState) item =>
                            if item.isObjLike then
                              let childY := position.2 +
                                (acc.1 + inner.1) * (NODE_HEIGHT + VERTICAL_GAP)
                              let r := createNodeFromData schemas fuel item (childX, childY)
                                (some (instanceId, rule.propertyPath)) inner.2
                              (inner.1 + 1, r.2)
                            else (inner.1 + 1, inner.2))
                          ((0 : Int), acc.2))
                        (acc.1 + items.length, after.2)
                      else acc)
                ((0 : Int), st)
              (some instanceId, final.2)

/-- The result record of `importFromJson`. -/
structure ImportResult where
  success : Bool
  nodes : List ImportNode
  edges : List ImportEdge
  errors : List Json

/-- `importFromJson` from the import codec: array inputs import each
object-like non-array item as a root (stacking rows vertically); other
inputs are imported as a single root. -/
def importFromJson (fuel : Nat) (data : Json) (schemas : Catalog)
    (startPosition : Int × Int) (counters : CounterMap) : ImportResult :=
  let st0 : ImportState := ⟨[], [], [], [], counters⟩
  let final :=
    match data with
    | .arr items => importRoots fuel schemas startPosition.1 items startPosition.2 st0
    | _ => (createNodeFromData schemas fuel data startPosition none st0).2
  ⟨final.errors.isEmpty, final.nodes, final.edges, final.errors⟩
where
  importRoots (fuel : Nat) (schemas : Catalog) (x : Int) :
      List Json → Int → ImportState → ImportState
    | [], _, st => st
    | item :: rest, yOffset, st =>
        if item.isStrictObj then
          let r := createNodeFromData schemas fuel item (x, yOffset) none st
          importRoots fuel schemas x rest (yOffset + NODE_HEIGHT + VERTICAL_GAP) r.2
        else importRoots fuel schemas x rest yOffset st


/-! ## Supporting lemmas -/

/-- Folding a function that ignores the elements failing `p` equals folding
over the filtered list. -/
theorem foldl_eq_foldl_filter {A B : Type} (p : A → Bool) (f : B → A → B) (g : B → A → B)
    (h1 : ∀ b a, p a = true → g b a = f b a) (h2 : ∀ b a, p a = false → g b a = b) :
    ∀ (l : List A) (b : B), l.foldl g b = (l.filter p).foldl f b := by
  intro l
  induction l with
  | nil => intro b; rfl
  | cons a l ih =>
      intro b
      by_cases hp : p a = true
      · rw [List.foldl_cons, List.filter_cons_of_pos hp, List.foldl_cons, h1 b a hp, ih]
      · have hp' : p a = false := Bool.not_eq_true _ ▸ hp
        rw [List.foldl_cons, List.filter_cons_of_neg (by simp [hp']), h2 b a hp', ih]

/-! ## C7 — the `$ref` path resolver -/

/-- The segment folds of `resolveRefPath` (over `/`-segments filtered of
empties) and of the specification's directory-segment resolution (over raw
segments, dropping empties inside the fold) coincide. -/
theorem segFold_eq (base : List String) (segs : List String) :
    (segs.filter (fun p => decide (p ≠ ""))).foldl
        (fun acc part =>
          if part = ".." then acc.dropLast else if part = "." then acc else acc ++ [part])
        base =
      segs.foldl
        (fun acc seg =>
          if seg = "" then acc
          else if seg = "." then acc
          else if seg = ".." then acc.dropLast
          else acc ++ [seg])
        base := by
  refine (foldl_eq_foldl_filter _ _ _ ?_ ?_ segs base).symm
  · intro b a ha
    have ha' : a ≠ "" := by simpa using ha
    by_cases h3 : a = ".."
    · simp [h3]
    · by_cases h4 : a = "."
      · simp [h4]
      · simp [h3, h4, ha']
  · intro b a ha
    have ha' : a = "" := by simpa using ha
    simp [ha']

/-- C7: For every `basePath` and `ref`, `resolveRefPath` first strips any
fragment (`#...`) suffix from `ref`; a `./`/`../` remainder resolves against
`basePath`'s directory with `..` popping one segment, `.` a no-op and empty
segments dropped; a remainder with no `/` becomes a sibling in `basePath`'s
directory (reducing to the bare filename when `basePath` has no directory
component); any other remainder passes through unchanged.  Stated as an
equivalence with `specResolveRef`, the resolver transcribed from the
specification's §4.1 wording; the function is pure by construction (it takes
no catalog and Lean functions are deterministic). -/
theorem resolveRefPath_eq_spec (basePath ref : String) :
    resolveRefPath ref basePath = specResolveRef basePath ref := by
  unfold resolveRefPath specResolveRef specSegResolve
  by_cases h1 : strStartsWith (takeUntilHash ref) "../" = true <;>
    by_cases h2 : strStartsWith (takeUntilHash ref) "./" = true <;>
      simp only [h1, h2, Bool.or_true, Bool.or_false, Bool.true_or, Bool.false_or,
        if_true, if_false, or_true, or_false, true_or, false_or, ite_true, ite_false]
  · exact congrArg _ (segFold_eq _ _)
  · exact congrArg _ (segFold_eq _ _)
  · exact congrArg _ (segFold_eq _ _)
  · rfl

/-! ## C8 and C10 — snapshot loading -/

/-- C8: `loadBuilderState` is all-or-nothing: it returns either the saved
snapshot unchanged or `none`; and it returns `none` whenever some node record
of the parsed snapshot lacks `id`, `position` or `data.schemaPath`, or some
edge record lacks `id`, `source` or `target` (no partial repair). -/
theorem loadBuilderState_all_or_nothing (stored : Option Json) :
    (loadBuilderState stored = none ∨ loadBuilderState stored = stored) ∧
    (∀ s nodes edges,
      stored = some s → s.get "nodes" = some (.arr nodes) →
      s.get "edges" = some (.arr edges) →
      ((∃ node ∈ nodes, node.get "id" = none ∨ node.get "position" = none ∨
          (node.get "data").bind (fun d => d.get "schemaPath") = none) ∨
       (∃ edge ∈ edges, edge.get "id" = none ∨ edge.get "source" = none ∨
          edge.get "target" = none)) →
      loadBuilderState stored = none) := by
  constructor
  · cases stored with
    | none => exact Or.inl rfl
    | some s =>
        simp only [loadBuilderState]
        split
        · exact Or.inl rfl
        · split
          · split
            · exact Or.inr rfl
            · exact Or.inl rfl
          · exact Or.inl rfl
  · rintro s nodes edges rfl hn he hbad
    simp only [loadBuilderState, hn, he]
    split
    · rfl
    · have hfail : (nodes.all nodeRecordOk && edges.all edgeRecordOk) = false := by
        rcases hbad with ⟨node, hmem, hmiss⟩ | ⟨edge, hmem, hmiss⟩
        · have hno : nodeRecordOk node = false := by
            rcases hmiss with h | h | h <;> simp [nodeRecordOk, h, truthyOpt]
          have hall : nodes.all nodeRecordOk = false :=
            List.all_eq_false.mpr ⟨node, hmem, by simp [hno]⟩
          simp [hall]
        · have hno : edgeRecordOk edge = false := by
            rcases hmiss with h | h | h <;> simp [edgeRecordOk, h, truthyOpt]
          have hall : edges.all edgeRecordOk = false :=
            List.all_eq_false.mpr ⟨edge, hmem, by simp [hno]⟩
          simp [hall]
      rw [hfail]
      simp

/-- C8 witness: a snapshot whose single node lacks `id` is discarded whole. -/
theorem loadBuilderState_all_or_nothing_witness :
    loadBuilderState (some (.obj [
      ("nodes", .arr [.obj [("position", .obj [("x", .num 0), ("y", .num 0)]),
        ("data", .obj [("schemaPath", .str "a/u.schema.json"),
          ("instanceId", .str "u-1")])]]),
      ("edges", .arr [])])) = none :=
  (loadBuilderState_all_or_nothing _).2
    (.obj [
      ("nodes", .arr [.obj [("position", .obj [("x", .num 0), ("y", .num 0)]),
        ("data", .obj [("schemaPath", .str "a/u.schema.json"),
          ("instanceId", .str "u-1")])]]),
      ("edges", .arr [])])
    [.obj [("position", .obj [("x", .num 0), ("y", .num 0)]),
      ("data", .obj [("schemaPath", .str "a/u.schema.json"), ("instanceId", .str "u-1")])]]
    [] rfl rfl rfl
    (Or.inl ⟨_, List.mem_singleton.mpr rfl, Or.inl rfl⟩)

/-- C10: `loadBuilderState` additionally requires `data.instanceId` on every
node — a field the snapshot contract does not list — and discards the entire
snapshot when a node lacks it, even if that node has `id`, `position` and
`data.schemaPath`. -/
theorem loadBuilderState_requires_instanceId (s : Json) (nodes edges : List Json)
    (node : Json)
    (hn : s.get "nodes" = some (.arr nodes)) (he : s.get "edges" = some (.arr edges))
    (hmem : node ∈ nodes)
    (hid : truthyOpt (node.get "id") = true)
    (hpos : truthyOpt (node.get "position") = true)
    (hsp : truthyOpt ((node.get "data").bind (fun d => d.get "schemaPath")) = true)
    (hinst : (node.get "data").bind (fun d => d.get "instanceId") = none) :
    loadBuilderState (some s) = none := by
  simp only [loadBuilderState, hn, he]
  split
  · rfl
  · have hno : nodeRecordOk node = false := by
      simp [nodeRecordOk, hinst, truthyOpt]
    have hall : nodes.all nodeRecordOk = false :=
      List.all_eq_false.mpr ⟨node, hmem, by simp [hno]⟩
    rw [show (nodes.all nodeRecordOk && edges.all edgeRecordOk) = false by simp [hall]]
    simp

/-- C10 witness: a node carrying `id`, `position` and `data.schemaPath` but no
`data.instanceId` still causes the whole snapshot to be discarded. -/
theorem loadBuilderState_requires_instanceId_witness :
    loadBuilderState (some (.obj [
      ("nodes", .arr [.obj [("id", .str "u-1"),
        ("position", .obj [("x", .num 0), ("y", .num 0)]),
        ("data", .obj [("schemaPath", .str "a/u.schema.json")])]]),
      ("edges", .arr [])])) = none :=
  loadBuilderState_requires_instanceId _
    [.obj [("id", .str "u-1"), ("position", .obj [("x", .num 0), ("y", .num 0)]),
      ("data", .obj [("schemaPath", .str "a/u.schema.json")])]]
    [] _ rfl rfl (List.mem_singleton.mpr rfl) rfl rfl rfl rfl

/-! ## C9 — uniqueness of generated instance ids -/

/-- The step equation of `Nat.toDigitsCore` at base 10. -/
theorem toDigitsCore_succ (f n : Nat) (acc : List Char) :
    Nat.toDigitsCore 10 (f + 1) n acc =
      if n / 10 = 0 then Nat.digitChar (n % 10) :: acc
      else Nat.toDigitsCore 10 f (n / 10) (Nat.digitChar (n % 10) :: acc) := rfl

/-- `Nat.digitChar` never returns `'-'`. -/
theorem digitChar_ne_dash (n : Nat) : Nat.digitChar n ≠ '-' := by
  rcases Nat.lt_or_ge n 16 with h | h
  · interval_cases n <;> decide
  · have hstar : Nat.digitChar n = '*' := by
      unfold Nat.digitChar
      rw [if_neg (show ¬ n = 0 by omega)]
      rw [if_neg (show ¬ n = 1 by omega)]
      rw [if_neg (show ¬ n = 2 by omega)]
      rw [if_neg (show ¬ n = 3 by omega)]
      rw [if_neg (show ¬ n = 4 by omega)]
      rw [if_neg (show ¬ n = 5 by omega)]
      rw [if_neg (show ¬ n = 6 by omega)]
      rw [if_neg (show ¬ n = 7 by omega)]
      rw [if_neg (show ¬ n = 8 by omega)]
      rw [if_neg (show ¬ n = 9 by omega)]
      rw [if_neg (show ¬ n = 10 by omega)]
      rw [if_neg (show ¬ n = 11 by omega)]
      rw [if_neg (show ¬ n = 12 by omega)]
      rw [if_neg (show ¬ n = 13 by omega)]
      rw [if_neg (show ¬ n = 14 by omega)]
      rw [if_neg (show ¬ n = 15 by omega)]
    rw [hstar]
    decide

/-- Every character of `Nat.toDigitsCore` output is from the accumulator or a
digit character. -/
theorem toDigitsCore_mem (b : Nat) :
    ∀ (fuel n : Nat) (acc : List Char) (c : Char),
      c ∈ Nat.toDigitsCore b fuel n acc → c ∈ acc ∨ ∃ m, c = Nat.digitChar m := by
  intro fuel
  induction fuel with
  | zero => intro n acc c h; exact Or.inl h
  | succ f ih =>
      intro n acc c h
      simp only [Nat.toDigitsCore] at h
      split at h
      · rcases List.mem_cons.mp h with rfl | hm
        · exact Or.inr ⟨n % b, rfl⟩
        · exact Or.inl hm
      · rcases ih _ _ _ h with hm | hd
        · rcases List.mem_cons.mp hm with rfl | hm2
          · exact Or.inr ⟨n % b, rfl⟩
          · exact Or.inl hm2
        · exact Or.inr hd

/-- `Nat.toDigitsCore` preserves accumulator nonemptiness. -/
theorem toDigitsCore_ne_nil (b : Nat) :
    ∀ (fuel n : Nat) (acc : List Char), acc ≠ [] → Nat.toDigitsCore b fuel n acc ≠ [] := by
  intro fuel
  induction fuel with
  | zero => intro n acc h; exact h
  | succ f ih =>
      intro n acc h
      simp only [Nat.toDigitsCore]
      split
      · exact List.cons_ne_nil _ _
      · exact ih _ _ (List.cons_ne_nil _ _)

/-- The decimal representation of a natural number is nonempty. -/
theorem toDigits_ne_nil (b n : Nat) : Nat.toDigits b n ≠ [] := by
  unfold Nat.toDigits
  simp only [Nat.toDigitsCore]
  split
  · exact List.cons_ne_nil _ _
  · exact toDigitsCore_ne_nil b _ _ _ (List.cons_ne_nil _ _)

/-- `Nat.toDigitsCore` appends to its accumulator (for sufficient fuel). -/
theorem toDigitsCore_acc (n : Nat) :
    ∀ (fuel : Nat) (acc : List Char), n < fuel →
      Nat.toDigitsCore 10 fuel n acc = Nat.toDigits 10 n ++ acc := by
  induction n using Nat.strong_induction_on with
  | _ n ih =>
      intro fuel acc hfuel
      cases fuel with
      | zero => cases Nat.not_lt_zero _ hfuel
      | succ f =>
          by_cases hdiv : n / 10 = 0
          · rw [toDigitsCore_succ, if_pos hdiv]
            rw [show Nat.toDigits 10 n = [Nat.digitChar (n % 10)] from by
              unfold Nat.toDigits
              rw [toDigitsCore_succ, if_pos hdiv]]
            rfl
          · have hpos : 0 < n := by
              rcases Nat.eq_zero_or_pos n with h0 | hp
              · exact absurd (by simp [h0]) hdiv
              · exact hp
            have hlt : n / 10 < n := Nat.div_lt_self hpos (by decide)
            have h1 : n / 10 < f := Nat.lt_of_lt_of_le hlt (Nat.lt_succ_iff.mp hfuel)
            rw [toDigitsCore_succ, if_neg hdiv]
            rw [ih _ hlt f _ h1]
            rw [show Nat.toDigits 10 n = Nat.toDigits 10 (n / 10) ++ [Nat.digitChar (n % 10)]
              from by
                unfold Nat.toDigits
                rw [toDigitsCore_succ, if_neg hdiv]
                exact ih _ hlt n _ hlt]
            simp

/-- The recurrence of `Nat.toDigits 10`. -/
theorem toDigits_rec (n : Nat) :
    Nat.toDigits 10 n =
      if n / 10 = 0 then [Nat.digitChar (n % 10)]
      else Nat.toDigits 10 (n / 10) ++ [Nat.digitChar (n % 10)] := by
  by_cases hdiv : n / 10 = 0
  · rw [if_pos hdiv]
    unfold Nat.toDigits
    rw [toDigitsCore_succ, if_pos hdiv]
  · rw [if_neg hdiv]
    have hpos : 0 < n := by
      rcases Nat.eq_zero_or_pos n with h0 | hp
      · exact absurd (by simp [h0]) hdiv
      · exact hp
    have hlt : n / 10 < n := Nat.div_lt_self hpos (by decide)
    unfold Nat.toDigits
    rw [toDigitsCore_succ, if_neg hdiv]
    exact toDigitsCore_acc _ n _ hlt

/-- `Nat.digitChar` is injective below 10. -/
theorem digitChar_inj_lt : ∀ a < 10, ∀ b < 10,
    Nat.digitChar a = Nat.digitChar b → a = b := by decide

/-- `Nat.toDigits 10` is injective. -/
theorem toDigits_inj (n1 : Nat) :
    ∀ n2, Nat.toDigits 10 n1 = Nat.toDigits 10 n2 → n1 = n2 := by
  induction n1 using Nat.strong_induction_on with
  | _ n1 ih =>
      intro n2 h
      rw [toDigits_rec n1, toDigits_rec n2] at h
      have hmod : ∀ m : Nat, m % 10 < 10 := fun m => Nat.mod_lt _ (by decide)
      by_cases h1 : n1 / 10 = 0 <;> by_cases h2 : n2 / 10 = 0
      · rw [if_pos h1, if_pos h2] at h
        have hd : Nat.digitChar (n1 % 10) = Nat.digitChar (n2 % 10) :=
          (List.cons.injEq _ _ _ _ ▸ h).1
        have := digitChar_inj_lt _ (hmod n1) _ (hmod n2) hd
        omega
      · rw [if_pos h1, if_neg h2] at h
        exfalso
        rcases List.exists_cons_of_ne_nil (toDigits_ne_nil 10 (n2 / 10)) with ⟨c, cs, hc⟩
        rw [hc] at h
        have hlen := congrArg List.length h
        simp [List.length_append] at hlen
      · rw [if_neg h1, if_pos h2] at h
        exfalso
        rcases List.exists_cons_of_ne_nil (toDigits_ne_nil 10 (n1 / 10)) with ⟨c, cs, hc⟩
        rw [hc] at h
        have hlen := congrArg List.length h
        simp [List.length_append] at hlen
      · rw [if_neg h1, if_neg h2] at h
        rw [← List.concat_eq_append, ← List.concat_eq_append] at h
        rcases List.concat_inj.mp h with ⟨hl, hd⟩
        have hpos : 0 < n1 := by
          rcases Nat.eq_zero_or_pos n1 with h0 | hp
          · exact absurd (by simp [h0]) h1
          · exact hp
        have hdiv : n1 / 10 < n1 := Nat.div_lt_self hpos (by decide)
        have heq1 : n1 / 10 = n2 / 10 := ih _ hdiv _ hl
        have heq2 : n1 % 10 = n2 % 10 := digitChar_inj_lt _ (hmod n1) _ (hmod n2) hd
        omega

/-- `Nat.repr` is injective. -/
theorem nat_repr_inj (n1 n2 : Nat) (h : Nat.repr n1 = Nat.repr n2) : n1 = n2 := by
  have : Nat.toDigits 10 n1 = Nat.toDigits 10 n2 := congrArg String.data h
  exact toDigits_inj n1 n2 this

/-- No `'-'` occurs in `Nat.repr`. -/
theorem nat_repr_no_dash (n : Nat) : '-' ∉ (Nat.repr n).data := by
  intro h
  have h' : '-' ∈ Nat.toDigits 10 n := h
  rcases toDigitsCore_mem 10 _ _ _ _ h' with h0 | ⟨m, hm⟩
  · cases h0
  · exact digitChar_ne_dash m hm.symm

/-- `takeWhile` stops exactly at the first failing element. -/
theorem takeWhile_append_stop (p : Char → Bool) (xs ys : List Char) (y : Char)
    (hxs : ∀ x ∈ xs, p x = true) (hy : p y = false) :
    (xs ++ y :: ys).takeWhile p = xs := by
  induction xs with
  | nil => simp [List.takeWhile_cons, hy]
  | cons a as ih =>
      have ha : p a = true := hxs a (List.mem_cons_self _ _)
      simp only [List.cons_append, List.takeWhile_cons, ha, if_true]
      rw [ih (fun x hx => hxs x (List.mem_cons_of_mem _ hx))]

/-- Splitting a character list at its final `'-'` is unambiguous when the
suffixes are dash-free. -/
theorem append_dash_inj (b1 b2 t1 t2 : List Char)
    (h1 : '-' ∉ t1) (h2 : '-' ∉ t2)
    (he : b1 ++ '-' :: t1 = b2 ++ '-' :: t2) : b1 = b2 ∧ t1 = t2 := by
  have hrev : t1.reverse ++ '-' :: b1.reverse = t2.reverse ++ '-' :: b2.reverse := by
    have := congrArg List.reverse he
    simpa using this
  have ht : t1.reverse = t2.reverse := by
    have e1 : (t1.reverse ++ '-' :: b1.reverse).takeWhile (fun c => c ≠ '-') = t1.reverse :=
      takeWhile_append_stop _ _ _ _
        (fun x hx => by
          simp only [ne_eq, decide_not, Bool.not_eq_true', decide_eq_false_iff_not]
          intro hxeq
          exact h1 (by simpa [hxeq] using List.mem_reverse.mp hx))
        (by simp)
    have e2 : (t2.reverse ++ '-' :: b2.reverse).takeWhile (fun c => c ≠ '-') = t2.reverse :=
      takeWhile_append_stop _ _ _ _
        (fun x hx => by
          simp only [ne_eq, decide_not, Bool.not_eq_true', decide_eq_false_iff_not]
          intro hxeq
          exact h2 (by simpa [hxeq] using List.mem_reverse.mp hx))
        (by simp)
    rw [← e1, ← e2, hrev]
  have ht' : t1 = t2 := by
    have := congrArg List.reverse ht
    simpa using this
  subst ht'
  refine ⟨?_, rfl⟩
  have hlen : b1.length = b2.length := by
    have := congrArg List.length he
    simp [List.length_append] at this
    omega
  exact List.append_inj_left he hlen

/-- The id format `"{base}-{n}"` determines base and counter uniquely. -/
theorem mkId_inj (b1 b2 : String) (n1 n2 : Nat)
    (h : b1 ++ "-" ++ Nat.repr n1 = b2 ++ "-" ++ Nat.repr n2) : b1 = b2 ∧ n1 = n2 := by
  have hd : b1.data ++ '-' :: (Nat.repr n1).data = b2.data ++ '-' :: (Nat.repr n2).data := by
    have := congrArg String.data h
    simpa using this
  rcases append_dash_inj _ _ _ _ (nat_repr_no_dash n1) (nat_repr_no_dash n2) hd with ⟨hb, ht⟩
  exact ⟨String.ext hb, nat_repr_inj _ _ (String.ext ht)⟩

/-- Every id issued by a run of the naming service exceeds the starting
counter of its stem. -/
theorem runGen_mem (ps : List String) :
    ∀ (c : CounterMap) (id : String), id ∈ runGen c ps →
      ∃ b n, id = b ++ "-" ++ Nat.repr n ∧ c b < n := by
  induction ps with
  | nil => intro c id h; cases h
  | cons p ps ih =>
      intro c id h
      rcases List.mem_cons.mp h with rfl | hmem
      · exact ⟨instanceBaseName p, c (instanceBaseName p) + 1, rfl, Nat.lt_succ_self _⟩
      · rcases ih _ _ hmem with ⟨b, n, hid, hgt⟩
        refine ⟨b, n, hid, ?_⟩
        by_cases hb : b = instanceBaseName p
        · subst hb
          simp [generateInstanceId] at hgt
          omega
        · simpa [generateInstanceId, hb] using hgt

/-- C9: every finite sequence of `generateInstanceId` calls, from any counter
state and with no intervening counter reset, returns pairwise distinct ids —
even across different `schemaPath` arguments: the counter is keyed on the
filename stem (shared by every path ending in the same file name) and strictly
increases per call, and `"{base}-{n}"` determines `(base, n)` uniquely because
the decimal suffix contains no dash. -/
theorem runGen_nodup (c : CounterMap) (ps : List String) : (runGen c ps).Nodup := by
  induction ps generalizing c with
  | nil => exact List.nodup_nil
  | cons p ps ih =>
      refine List.nodup_cons.mpr ⟨?_, ih _⟩
      intro hmem
      rcases runGen_mem ps _ _ hmem with ⟨b, n, hid, hgt⟩
      rcases mkId_inj _ _ _ _ hid with ⟨hb, hn⟩
      subst hb hn
      simp [generateInstanceId] at hgt


/-! ## C2 — the schema-compatibility gate of `validateConnection` -/

/-- Membership and `List.contains` agree for strings. -/
theorem contains_iff_mem (l : List String) (a : String) : l.contains a = true ↔ a ∈ l := by
  simp [List.contains_iff_exists_mem_beq]

/-- C2 (amended): given that both instances exist, the source schema is found
and truthy, and a rule is found for `propertyPath`, `validateConnection`
proceeds past the schema-compatibility check (i.e. does not fail with the
target-mismatch reason) iff the target instance's `schemaPath` lies in
`resolveTargetSchemaPath` of the rule's target — the source's resolved-target
set, which contains the queried path itself unless the path is absent from the
catalog and suffix-matches a catalog key, in which case the matched key
replaces it. -/
theorem validateConnection_target_gate (fuel : Nat) (s t p : String)
    (conns : List DataConnection) (schemas : Catalog)
    (instances : List (String × DataInstance))
    (si ti : DataInstance) (sch : Json) (rule : ConnectionRule)
    (h1 : mapGet instances s = some si) (h2 : mapGet instances t = some ti)
    (h3 : catFind schemas si.schemaPath = some sch) (h4 : sch.truthy = true)
    (h5 : (getSchemaConnectionRules sch si.schemaPath (some schemas)).find?
        (fun r => r.propertyPath == p) = some rule) :
    (validateConnection fuel s t p conns schemas instances ≠ some .targetSchemaMismatch) ↔
      ti.schemaPath ∈ resolveTargetSchemaPath fuel rule.targetSchemaPath schemas := by
  unfold validateConnection
  simp only [h1, h2, h3, h5]
  rw [if_neg (by simp [h4])]
  by_cases hc : (resolveTargetSchemaPath fuel rule.targetSchemaPath schemas).contains
      ti.schemaPath = true
  · rw [if_neg (not_not_intro hc)]
    constructor
    · intro _
      exact (contains_iff_mem _ _).mp hc
    · intro _
      split
      · simp
      · split
        · simp
        · split
          · simp
          · simp
  · rw [if_pos hc]
    constructor
    · intro habs
      exact absurd rfl habs
    · intro hmem
      exact absurd ((contains_iff_mem _ _).mpr hmem) hc

/-- The concrete catalog of the C2 counterexample: the `p` property of the
main schema is an array of refs to `widget.schema.json`, which resolves to
`src/widget.schema.json`; that path is not a catalog key, but the key
`lib/src/widget.schema.json` suffix-matches it. -/
def c2Cat : Catalog := [
  ("src/main.schema.json", .obj [("properties", .obj [
    ("p", .obj [("type", .str "array"),
      ("items", .obj [("$ref", .str "widget.schema.json")])])])]),
  ("lib/src/widget.schema.json", .obj [])]

/-- The instances of the C2 counterexample; the target's schema path equals
the rule's target path exactly. -/
def c2Inst : List (String × DataInstance) := [
  ("m-1", ⟨"m-1", "src/main.schema.json", (0, 0), .obj []⟩),
  ("w-1", ⟨"w-1", "src/widget.schema.json", (0, 0), .obj []⟩)]

/-- C2 counterexample: the claim as stated — with the resolved-target set
"always containing the path itself", transcribed in `specResolveTargets` —
fails on the code: the rule found for `p` targets `src/widget.schema.json`
and the target instance carries exactly that schema path (so the claim's set
contains it and predicts acceptance), yet `validateConnection` rejects with
the target-mismatch reason, because `resolveTargetSchemaPath` rewrote the
queried path to the suffix-matched catalog key `lib/src/widget.schema.json`. -/
theorem validateConnection_spec_gate_counterexample :
    (getSchemaConnectionRules ((catFind c2Cat "src/main.schema.json").getD .null)
        "src/main.schema.json" (some c2Cat)).find? (fun r => r.propertyPath == "p") =
      some ⟨"p", "src/widget.schema.json", .many, false⟩ ∧
    "src/widget.schema.json" ∈ specResolveTargets 2 "src/widget.schema.json" c2Cat ∧
    ¬ ((validateConnection 2 "m-1" "w-1" "p" [] c2Cat c2Inst ≠ some .targetSchemaMismatch) ↔
       "src/widget.schema.json" ∈ specResolveTargets 2 "src/widget.schema.json" c2Cat) := by
  refine ⟨rfl, by decide, ?_⟩
  intro h
  have hL : validateConnection 2 "m-1" "w-1" "p" [] c2Cat c2Inst =
      some .targetSchemaMismatch := rfl
  exact (h.mpr (by decide)) hL

/-- The concrete catalog of the C2 witness. -/
def c2wCat : Catalog := [
  ("a/s.schema.json", .obj [("properties", .obj [
    ("p", .obj [("$ref", .str "./t.schema.json")])])]),
  ("a/t.schema.json", .obj [("type", .str "object"),
    ("properties", .obj [("x", .obj [("type", .str "string")])])])]

/-- The concrete instances of the C2 witness. -/
def c2wInst : List (String × DataInstance) := [
  ("s-1", ⟨"s-1", "a/s.schema.json", (0, 0), .obj []⟩),
  ("t-1", ⟨"t-1", "a/t.schema.json", (0, 0), .obj []⟩)]

/-- C2 witness: the amended gate equivalence at a concrete catalog, with every
hypothesis discharged by computation. -/
theorem validateConnection_target_gate_witness :
    (validateConnection 2 "s-1" "t-1" "p" [] c2wCat c2wInst ≠ some .targetSchemaMismatch) ↔
      "a/t.schema.json" ∈ resolveTargetSchemaPath 2 "a/t.schema.json" c2wCat :=
  validateConnection_target_gate 2 "s-1" "t-1" "p" [] c2wCat c2wInst
    ⟨"s-1", "a/s.schema.json", (0, 0), .obj []⟩
    ⟨"t-1", "a/t.schema.json", (0, 0), .obj []⟩
    (.obj [("properties", .obj [("p", .obj [("$ref", .str "./t.schema.json")])])])
    ⟨"p", "a/t.schema.json", .one, false⟩
    rfl rfl rfl rfl rfl


/-! ## C1 — the cardinality and no-duplicate invariants -/

/-- The rule the validator consults for instance `i` and property `p`: the
first rule for `p` extracted from `i`'s schema (the same lookup chain as
`validateConnection`). -/
def ruleFor (schemas : Catalog) (instances : List (String × DataInstance))
    (i p : String) : Option ConnectionRule :=
  match mapGet instances i with
  | none => none
  | some inst =>
      match catFind schemas inst.schemaPath with
      | none => none
      | some sch =>
          if sch.truthy then
            (getSchemaConnectionRules sch inst.schemaPath (some schemas)).find?
              (fun r => r.propertyPath == p)
          else none

/-- Connection lists reachable from the empty list by appending only
connections that `validateConnection` accepted against the current list
(the `propose-connection` discipline), with the catalog and instance map
fixed. -/
inductive ReachableConns (fuel : Nat) (schemas : Catalog)
    (instances : List (String × DataInstance)) : List DataConnection → Prop
  | nil : ReachableConns fuel schemas instances []
  | snoc {conns : List DataConnection} (cid s t p : String)
      (hprev : ReachableConns fuel schemas instances conns)
      (hvalid : validateConnection fuel s t p conns schemas instances = none) :
      ReachableConns fuel schemas instances (conns ++ [⟨cid, s, t, p⟩])

/-- Inverting a successful validation: the rule lookup succeeded, the
one-cardinality slot was free, and the exact triple was absent. -/
theorem validateConnection_none_inv {fuel : Nat} {s t p : String}
    {conns : List DataConnection} {schemas : Catalog}
    {instances : List (String × DataInstance)}
    (h : validateConnection fuel s t p conns schemas instances = none) :
    ∃ rule, ruleFor schemas instances s p = some rule ∧
      (rule.cardinality = .one →
        conns.any (fun c => c.sourceId == s && c.propertyPath == p) = false) ∧
      conns.any (fun c =>
        c.sourceId == s && c.targetId == t && c.propertyPath == p) = false := by
  unfold validateConnection at h
  rcases hsi : mapGet instances s with _ | si
  · simp only [hsi] at h
    cases h
  simp only [hsi] at h
  rcases hti : mapGet instances t with _ | ti
  · simp only [hti] at h
    cases h
  simp only [hti] at h
  rcases hsch : catFind schemas si.schemaPath with _ | sch
  · simp only [hsch] at h
    cases h
  simp only [hsch] at h
  by_cases htr : sch.truthy = true
  · rw [if_neg (not_not_intro htr)] at h
    rcases hrule : (getSchemaConnectionRules sch si.schemaPath (some schemas)).find?
        (fun r => r.propertyPath == p) with _ | rule
    · simp only [hrule] at h
      cases h
    simp only [hrule] at h
    by_cases hmem : (resolveTargetSchemaPath fuel rule.targetSchemaPath schemas).contains
        ti.schemaPath = true
    · rw [if_neg (not_not_intro hmem)] at h
      by_cases h1 : (rule.cardinality == Cardinality.one &&
          conns.any (fun c => c.sourceId == s && c.propertyPath == p)) = true
      · rw [if_pos h1] at h; cases h
      · rw [if_neg h1] at h
        by_cases h2 : (s == t) = true
        · rw [if_pos h2] at h; cases h
        · rw [if_neg h2] at h
          by_cases h3 : (conns.any (fun c =>
              c.sourceId == s && c.targetId == t && c.propertyPath == p)) = true
          · rw [if_pos h3] at h; cases h
          · refine ⟨rule, ?_, ?_, ?_⟩
            · unfold ruleFor
              simp only [hsi, hsch, hrule]
              rw [if_pos htr]
            · intro hcard
              have h1' : (rule.cardinality == Cardinality.one &&
                  conns.any (fun c => c.sourceId == s && c.propertyPath == p)) = false :=
                Bool.not_eq_true _ ▸ h1
              rcases Bool.and_eq_false_iff.mp h1' with hcl | hany
              · rw [hcard] at hcl
                exact absurd hcl (by decide)
              · exact hany
            · exact Bool.not_eq_true _ ▸ h3
    · rw [if_pos hmem] at h; cases h
  · rw [if_pos htr] at h; cases h

/-- C1: starting from the empty connection list, after any finite sequence of
proposed connections each appended only when `validateConnection` returned
valid, (a) for every instance `i` and property `p` whose rule has cardinality
`one`, at most one connection has `sourceId = i` and `propertyPath = p`, and
(b) no two connections agree on all of `(sourceId, targetId, propertyPath)`. -/
theorem reachableConns_invariant (fuel : Nat) (schemas : Catalog)
    (instances : List (String × DataInstance)) (conns : List DataConnection)
    (h : ReachableConns fuel schemas instances conns) :
    (∀ i p r, ruleFor schemas instances i p = some r → r.cardinality = .one →
      (conns.filter (fun c => c.sourceId == i && c.propertyPath == p)).length ≤ 1) ∧
    conns.Pairwise (fun a b =>
      ¬ (a.sourceId = b.sourceId ∧ a.targetId = b.targetId ∧
         a.propertyPath = b.propertyPath)) := by
  induction h with
  | nil => exact ⟨fun i p r _ _ => by simp, List.Pairwise.nil⟩
  | @snoc conns0 cid s t p hprev hvalid ih =>
      rcases validateConnection_none_inv hvalid with ⟨rule, hrule, hone, hdup⟩
      constructor
      · intro i p' r hr hcard
        rw [List.filter_append, List.length_append]
        by_cases hmatch : ((⟨cid, s, t, p⟩ : DataConnection).sourceId == i &&
            (⟨cid, s, t, p⟩ : DataConnection).propertyPath == p') = true
        · have hsi : s = i ∧ p = p' := by simpa using hmatch
          rcases hsi with ⟨rfl, rfl⟩
          obtain rfl : rule = r := Option.some.inj (hrule.symm.trans hr)
          have hempty : conns0.filter (fun c => c.sourceId == s && c.propertyPath == p) = [] :=
            List.filter_eq_nil_iff.mpr (fun a ha => by
              have := List.any_eq_false.mp (hone hcard) a ha
              simpa using this)
          rw [hempty]
          simp [List.filter]
        · have hconl : List.filter (fun c => c.sourceId == i && c.propertyPath == p')
              [(⟨cid, s, t, p⟩ : DataConnection)] = [] := by
            simp only [List.filter_cons, List.filter_nil]
            rw [if_neg hmatch]
          rw [hconl]
          simpa using ih.1 i p' r hr hcard
      · rw [List.pairwise_append]
        refine ⟨ih.2, List.pairwise_singleton _ _, ?_⟩
        intro a ha b hb
        have hb' : b = ⟨cid, s, t, p⟩ := List.mem_singleton.mp hb
        subst hb'
        intro hcontra
        have := List.any_eq_false.mp hdup a ha
        simp only [Bool.and_eq_true, beq_iff_eq] at this
        exact this ⟨⟨hcontra.1, hcontra.2.1⟩, hcontra.2.2⟩

/-- C1 witness: the invariant applied to a concrete one-step reachable list
(the connection proposed and accepted against the empty list). -/
theorem reachableConns_invariant_witness :
    (∀ i p r, ruleFor c2wCat c2wInst i p = some r → r.cardinality = .one →
      (([⟨"c1", "s-1", "t-1", "p"⟩] : List DataConnection).filter
        (fun c => c.sourceId == i && c.propertyPath == p)).length ≤ 1) ∧
    ([⟨"c1", "s-1", "t-1", "p"⟩] : List DataConnection).Pairwise (fun a b =>
      ¬ (a.sourceId = b.sourceId ∧ a.targetId = b.targetId ∧
         a.propertyPath = b.propertyPath)) :=
  reachableConns_invariant 2 c2wCat c2wInst [⟨"c1", "s-1", "t-1", "p"⟩]
    (ReachableConns.snoc "c1" "s-1" "t-1" "p" ReachableConns.nil rfl)

/-! ### C3: direct-`$ref` rules for array-of-refs targets -/

/-- `setKeyJS` keeps the object keys duplicate-free. -/
theorem setKeyJS_keys_nodup {a : List (String × Json)}
    (h : (a.map Prod.fst).Nodup) (k : String) (v : Json) :
    ((setKeyJS a k v).map Prod.fst).Nodup := by
  unfold setKeyJS
  by_cases hk : a.any (fun e => e.1 == k) = true
  · rw [if_pos hk]
    have hmap : (a.map (fun e => if e.1 == k then (k, v) else e)).map Prod.fst =
        a.map Prod.fst := by
      rw [List.map_map]
      apply List.map_congr_left
      intro e _
      show Prod.fst (if e.1 == k then (k, v) else e) = e.1
      by_cases hek : (e.1 == k) = true
      · rw [if_pos hek]
        exact (beq_iff_eq.mp hek).symm
      · rw [if_neg hek]
    rw [hmap]
    exact h
  · rw [if_neg hk]
    rw [List.map_append]
    refine List.nodup_append.mpr ⟨h, List.nodup_singleton k, ?_⟩
    intro x hx hx1
    have hxk : x = k := List.mem_singleton.mp hx1
    subst hxk
    rcases List.mem_map.mp hx with ⟨e, he, hfst⟩
    have := List.any_eq_false.mp (Bool.not_eq_true _ ▸ hk) e he
    rw [beq_iff_eq] at this
    exact this hfst

/-- Spreading an object into an accumulator keeps the keys duplicate-free. -/
theorem spreadInto_keys_nodup (j : Json) {a : List (String × Json)}
    (h : (a.map Prod.fst).Nodup) : ((spreadInto a j).map Prod.fst).Nodup := by
  unfold spreadInto
  generalize jsObjEntries j = es
  induction es generalizing a with
  | nil => exact h
  | cons e rest ih => exact ih (setKeyJS_keys_nodup h e.1 e.2)

/-- The merged property list of a schema never repeats a property name. -/
theorem mergedProperties_keys_nodup (schema : Json) :
    ((mergedProperties schema).map Prod.fst).Nodup := by
  unfold mergedProperties
  have hbase : ∀ acc : List (String × Json), (acc.map Prod.fst).Nodup →
      ∀ subs : List Json,
      ((subs.foldl
        (fun acc sub =>
          match sub.get "properties" with
          | some p => if p.isObjLike then spreadInto acc p else acc
          | none => acc)
        acc).map Prod.fst).Nodup := by
    intro acc hacc subs
    induction subs generalizing acc with
    | nil => exact hacc
    | cons sub rest ih =>
        rw [List.foldl_cons]
        refine ih _ ?_
        rcases hget : sub.get "properties" with _ | p
        · exact hacc
        · show ((if p.isObjLike = true then spreadInto acc p else acc).map Prod.fst).Nodup
          by_cases hobj : p.isObjLike = true
          · rw [if_pos hobj]
            exact spreadInto_keys_nodup p hacc
          · rw [if_neg hobj]
            exact hacc
  have hb : ((match schema.get "properties" with
      | some p => if p.isObjLike then spreadInto [] p else []
      | none => ([] : List (String × Json))).map Prod.fst).Nodup := by
    rcases hget : schema.get "properties" with _ | p
    · exact List.nodup_nil
    · show ((if p.isObjLike = true then spreadInto [] p
          else ([] : List (String × Json))).map Prod.fst).Nodup
      by_cases hobj : p.isObjLike = true
      · rw [if_pos hobj]
        exact spreadInto_keys_nodup p List.nodup_nil
      · rw [if_neg hobj]
        exact List.nodup_nil
  rcases hall : schema.get "allOf" with _ | j
  · exact hb
  · cases j with
    | arr subs => exact hbase _ hb subs
    | null => exact hb
    | bool b => exact hb
    | num n => exact hb
    | str s => exact hb
    | obj fields => exact hb

/-- Every rule emitted by the direct-`$ref` branch carries the property name it
was emitted for. -/
theorem directRefRules_pp (sp : String) (cat : Option Catalog) (req : List String)
    (n s : String) : ∀ r ∈ directRefRules sp cat req n s, r.propertyPath = n := by
  intro r hr
  simp only [directRefRules] at hr
  repeat' split at hr
  all_goals first
    | exact absurd hr (List.not_mem_nil r)
    | (cases List.mem_singleton.mp hr; rfl)

/-- Every rule emitted by the array-items branch carries the property name it
was emitted for. -/
theorem arrayItemsRules_pp (sp : String) (cat : Option Catalog) (req : List String)
    (n : String) (v : Json) : ∀ r ∈ arrayItemsRules sp cat req n v, r.propertyPath = n := by
  intro r hr
  simp only [arrayItemsRules] at hr
  repeat' split at hr
  all_goals first
    | exact absurd hr (List.not_mem_nil r)
    | (cases List.mem_singleton.mp hr; rfl)

/-- Every rule emitted by the pattern-properties loop carries the property name
it was emitted for. -/
theorem patternLoop_pp (sp : String) (cat : Option Catalog) (req : List String)
    (n : String) : ∀ es, ∀ r ∈ patternLoop sp cat req n es, r.propertyPath = n := by
  intro es
  induction es with
  | nil =>
      intro r hr
      exact absurd hr (List.not_mem_nil r)
  | cons e rest ih =>
      intro r hr
      simp only [patternLoop] at hr
      repeat' split at hr
      all_goals first
        | exact absurd hr (List.not_mem_nil r)
        | (cases List.mem_singleton.mp hr; rfl)
        | exact ih r hr

/-- Every rule emitted by the pattern-properties branch carries the property
name it was emitted for. -/
theorem patternPropertyRules_pp (sp : String) (cat : Option Catalog)
    (req : List String) (n : String) (v : Json) :
    ∀ r ∈ patternPropertyRules sp cat req n v, r.propertyPath = n := by
  intro r hr
  simp only [patternPropertyRules] at hr
  repeat' split at hr
  all_goals first
    | exact absurd hr (List.not_mem_nil r)
    | exact patternLoop_pp sp cat req n _ r hr

/-- Every rule `processProperty` emits for a property carries that property's
name as its `propertyPath`. -/
theorem processProperty_pp (sp : String) (cat : Option Catalog) (req : List String)
    (n : String) (v : Json) : ∀ r ∈ processProperty sp cat req n v, r.propertyPath = n := by
  intro r hr
  simp only [processProperty] at hr
  repeat' split at hr
  all_goals first
    | exact absurd hr (List.not_mem_nil r)
    | exact directRefRules_pp sp cat req n _ r hr
    | (rcases List.mem_append.mp hr with h2 | h3
       · exact arrayItemsRules_pp sp cat req n v r h2
       · exact patternPropertyRules_pp sp cat req n v r h3)

/-- Filtering a per-property flat map for one property name recovers exactly
that property's contribution, provided the names are duplicate-free and every
emitted rule is tagged with its property's name. -/
theorem flatMap_filter_key (g : String → Json → List ConnectionRule) (n : String)
    (hpp : ∀ k v r, r ∈ g k v → r.propertyPath = k) :
    ∀ l : List (String × Json), (l.map Prod.fst).Nodup →
      ∀ v, (n, v) ∈ l →
      (l.flatMap (fun e => g e.1 e.2)).filter (fun r => r.propertyPath == n) = g n v := by
  intro l
  induction l with
  | nil =>
      intro _ v hv
      exact absurd hv (List.not_mem_nil _)
  | cons a rest ih =>
      intro hnd v hv
      simp only [List.map_cons] at hnd
      have hn : a.1 ∉ rest.map Prod.fst := (List.nodup_cons.mp hnd).1
      have hnd' : (rest.map Prod.fst).Nodup := (List.nodup_cons.mp hnd).2
      rw [List.flatMap_cons, List.filter_append]
      rcases List.mem_cons.mp hv with heq | hmem
      · cases heq.symm
        have h1 : (g n v).filter (fun r => r.propertyPath == n) = g n v :=
          List.filter_eq_self.mpr (fun r hr => beq_iff_eq.mpr (hpp n v r hr))
        have h2 : (rest.flatMap (fun e => g e.1 e.2)).filter
            (fun r => r.propertyPath == n) = [] := by
          refine List.filter_eq_nil_iff.mpr ?_
          intro r hr hpred
          rcases List.mem_flatMap.mp hr with ⟨e, he, hre⟩
          refine hn ?_
          have h3 : e.1 = n := (hpp e.1 e.2 r hre).symm.trans (beq_iff_eq.mp hpred)
          show n ∈ rest.map Prod.fst
          rw [← h3]
          exact List.mem_map_of_mem Prod.fst he
        rw [h1, h2, List.append_nil]
      · have hane : a.1 ≠ n := by
          intro hc
          exact hn (hc ▸ List.mem_map_of_mem Prod.fst hmem)
        have h1 : (g a.1 a.2).filter (fun r => r.propertyPath == n) = [] := by
          refine List.filter_eq_nil_iff.mpr ?_
          intro r hr hpred
          exact hane ((hpp a.1 a.2 r hr).symm.trans (beq_iff_eq.mp hpred))
        rw [h1, List.nil_append]
        exact ih hnd' v hmem

/-- C3 counterexample material: a direct `$ref` to an array-of-refs schema that
is nevertheless content-primitive (`type: "string"` alongside `items.$ref`). -/
def c3cT : Json :=
  .obj [("type", .str "string"),
        ("items", .obj [("$ref", .str "./item.schema.json")])]

/-- The source schema of the C3 counterexample: one direct-`$ref` property. -/
def c3cS : Json :=
  .obj [("properties", .obj [("lst", .obj [("$ref", .str "./list.schema.json")])])]

/-- The catalog of the C3 counterexample. -/
def c3cCat : Catalog := [("a/list.schema.json", c3cT)]

/-- C3 counterexample: the property `lst` of `c3cS` is a direct `$ref` ending
in a schema-file suffix that resolves to the catalog schema `c3cT`, which is an
array-of-refs (`items.$ref` present); yet `getSchemaConnectionRules` emits no
rule at all for `lst`, because `c3cT` is content-primitive (`type: "string"`)
and the primitive check runs before the array-of-refs check. -/
theorem getSchemaConnectionRules_array_wrapper_counterexample :
    catFind c3cCat "a/list.schema.json" = some c3cT ∧
    isArraySchemaWithItems c3cT = true ∧
    (c3cS.get "properties").bind (fun p => p.get "lst") =
      some (.obj [("$ref", .str "./list.schema.json")]) ∧
    resolveDirectRef "a/main.schema.json"
      (takeUntilHash "./list.schema.json") = "a/list.schema.json" ∧
    (getSchemaConnectionRules c3cS "a/main.schema.json" (some c3cCat)).filter
      (fun r => r.propertyPath == "lst") = [] :=
  ⟨rfl, rfl, rfl, rfl, rfl⟩

/-- C3 (amended: the fetched target schema must additionally not be primitive —
by path heuristic or by content — or the property is skipped entirely): a
direct `$ref` property whose resolved, non-primitive target is found in the
catalog yields exactly one rule for that property, with cardinality `many` and
the wrapper's own resolved path when the target is an array-of-refs, and
cardinality `one` otherwise. -/
theorem getSchemaConnectionRules_direct_ref (schema : Json) (schemaPath : String)
    (cat : Catalog) (propName s refPath : String) (v tgt : Json)
    (hmem : (propName, v) ∈ mergedProperties schema)
    (href : v.get "$ref" = some (.str s)) (hs : s ≠ "")
    (hpre : takeUntilHash s ≠ "")
    (hjson : strEndsWith (takeUntilHash s) ".json" = true)
    (hrp : resolveDirectRef schemaPath (takeUntilHash s) = refPath)
    (hprim : isPrimitiveSchemaPath refPath = false)
    (hcat : catFind cat refPath = some tgt)
    (htr : tgt.truthy = true)
    (hnp : isPrimitiveSchema tgt = false) :
    (getSchemaConnectionRules schema schemaPath (some cat)).filter
        (fun r => r.propertyPath == propName) =
      [⟨propName, refPath,
        if isArraySchemaWithItems tgt then .many else .one,
        (requiredSet schema).contains propName⟩] := by
  unfold getSchemaConnectionRules
  rw [flatMap_filter_key _ propName
    (fun k w r hr => processProperty_pp schemaPath (some cat) (requiredSet schema) k w r hr)
    (mergedProperties schema) (mergedProperties_keys_nodup schema) v hmem]
  have hobj : v.isObjLike = true := by
    cases v <;> first | rfl | (exact absurd href (by simp [Json.get]))
  have hlk : flexibleLookup (some cat) refPath = (refPath, some tgt) := by
    unfold flexibleLookup
    simp only [hcat, truthyOpt, htr, if_true]
  unfold processProperty
  rw [if_neg (not_not_intro hobj)]
  simp only [href]
  rw [if_pos hs]
  simp only [directRefRules]
  rw [if_pos ⟨hpre, hjson⟩, hrp, hprim]
  simp only [Bool.false_eq_true, if_false, hlk]
  rw [if_pos htr, if_neg (by rw [hnp]; exact Bool.false_ne_true)]
  by_cases ha : isArraySchemaWithItems tgt = true
  · rw [if_pos ha, if_pos ha]
  · rw [if_neg ha, if_neg ha]

/-- C3 witness material: a plain (non-primitive, non-array) target schema. -/
def c3wW : Json :=
  .obj [("type", .str "object"),
        ("properties", .obj [("x", .obj [("type", .str "string")])])]

/-- The source schema of the C3 witness: a required direct-`$ref` property. -/
def c3wS : Json :=
  .obj [("properties", .obj [("w", .obj [("$ref", .str "./widget.schema.json")])]),
        ("required", .arr [.str "w"])]

/-- The catalog of the C3 witness. -/
def c3wCat : Catalog := [("a/widget.schema.json", c3wW)]

/-- C3 witness: the direct-`$ref` theorem applied at a concrete schema and
catalog. -/
theorem getSchemaConnectionRules_direct_ref_witness :
    (getSchemaConnectionRules c3wS "a/main.schema.json" (some c3wCat)).filter
        (fun r => r.propertyPath == "w") =
      [⟨"w", "a/widget.schema.json", .one, true⟩] := by
  have h := getSchemaConnectionRules_direct_ref c3wS "a/main.schema.json" c3wCat
    "w" "./widget.schema.json" "a/widget.schema.json"
    (.obj [("$ref", .str "./widget.schema.json")]) c3wW
    (List.mem_singleton.mpr rfl) rfl (by decide) (by decide) rfl rfl rfl rfl rfl rfl
  exact h

/-! ### C4: no rule targets a primitive schema -/

/-- A falsy value is never content-primitive (the content check requires an
object). -/
theorem falsy_not_primitive {j : Json} (h : j.truthy = false) :
    isPrimitiveSchema j = false := by
  cases j with
  | null => rfl
  | bool b =>
      cases b with
      | false => rfl
      | true => exact absurd h (by simp [Json.truthy])
  | num n =>
      by_cases hn : n = 0
      · subst hn
        rfl
      · exact absurd h (by simp [Json.truthy, hn])
  | str s =>
      by_cases hs : s = ""
      · subst hs
        rfl
      · exact absurd h (by simp [Json.truthy, hs])
  | arr es => exact absurd h (by simp [Json.truthy])
  | obj fs => exact absurd h (by simp [Json.truthy])

/-- A falsy optional lookup result is never content-primitive. -/
theorem optFalsy_not_primitive {o : Option Json} (h : truthyOpt o = false) :
    isPrimitiveSchema (o.getD .null) = false := by
  cases o with
  | none => rfl
  | some j => exact falsy_not_primitive h

/-- Escaping the `truthy ∧ primitive` guard means the looked-up schema is not
content-primitive. -/
theorem guard_not_primitive {o : Option Json}
    (h : ¬(truthyOpt o = true ∧ isPrimitiveSchema (o.getD .null) = true)) :
    isPrimitiveSchema (o.getD .null) = false := by
  by_cases ht : truthyOpt o = true
  · rcases Bool.eq_false_or_eq_true (isPrimitiveSchema (o.getD .null)) with hp | hp
    · exact absurd ⟨ht, hp⟩ h
    · exact hp
  · exact optFalsy_not_primitive (Bool.not_eq_true _ ▸ ht)

/-- The schema component of a flexible lookup is always the catalog entry at
the returned path. -/
theorem flexibleLookup_snd (cat : Catalog) (r0 : String) :
    (flexibleLookup (some cat) r0).2 =
      catFind cat (flexibleLookup (some cat) r0).1 := by
  simp only [flexibleLookup]
  by_cases ht : truthyOpt (catFind cat r0) = true
  · rw [if_pos ht]
  · rw [if_neg ht]
    rcases hfind : (cat.map (·.1)).find?
        (fun key => strEndsWith key r0 || strEndsWith r0 key) with _ | key
    · rw [hfind]
    · rw [hfind]

/-- The path component of a flexible lookup is either the queried path or a
genuine catalog key. -/
theorem flexibleLookup_fst (cat : Catalog) (r0 : String) :
    (flexibleLookup (some cat) r0).1 = r0 ∨
    (catFind cat (flexibleLookup (some cat) r0).1).isSome = true := by
  simp only [flexibleLookup]
  by_cases ht : truthyOpt (catFind cat r0) = true
  · rw [if_pos ht]
    exact Or.inl rfl
  · rw [if_neg ht]
    rcases hfind : (cat.map (·.1)).find?
        (fun key => strEndsWith key r0 || strEndsWith r0 key) with _ | key
    · rw [hfind]
      exact Or.inl rfl
    · rw [hfind]
      refine Or.inr ?_
      have hk : key ∈ cat.map (·.1) := List.mem_of_find?_eq_some hfind
      rcases List.mem_map.mp hk with ⟨e, he, hek⟩
      have hfs : (cat.find? (fun x => x.1 == key)).isSome = true :=
        List.find?_isSome.mpr ⟨e, he, beq_iff_eq.mpr hek⟩
      show (catFind cat key).isSome = true
      unfold catFind
      rcases hf : cat.find? (fun x => x.1 == key) with _ | e2
      · rw [hf] at hfs
        cases hfs
      · rw [hf]
        rfl

/-- The target non-primitivity invariant a single rule satisfies. -/
def ruleTargetOk (cat : Catalog) (r : ConnectionRule) : Prop :=
  isPrimitiveSchema ((catFind cat r.targetSchemaPath).getD .null) = false ∧
  (isPrimitiveSchemaPath r.targetSchemaPath = false ∨
   (catFind cat r.targetSchemaPath).isSome = true)

/-- Branch 1 (direct `$ref`) only emits rules with non-primitive targets. -/
theorem directRefRules_target (sp : String) (cat : Catalog) (req : List String)
    (n s : String) :
    ∀ r ∈ directRefRules sp (some cat) req n s, ruleTargetOk cat r := by
  intro r hr
  simp only [directRefRules] at hr
  by_cases h1 : takeUntilHash s ≠ "" ∧ strEndsWith (takeUntilHash s) ".json" = true
  swap
  · rw [if_neg h1] at hr
    exact absurd hr (List.not_mem_nil r)
  rw [if_pos h1] at hr
  set refPath0 := resolveDirectRef sp (takeUntilHash s) with hrp0
  by_cases h2 : isPrimitiveSchemaPath refPath0 = true
  · rw [if_pos h2] at hr
    exact absurd hr (List.not_mem_nil r)
  rw [if_neg h2] at hr
  have h2' : isPrimitiveSchemaPath refPath0 = false := Bool.not_eq_true _ ▸ h2
  have hsnd := flexibleLookup_snd cat refPath0
  have hfst := flexibleLookup_fst cat refPath0
  have hdisj : isPrimitiveSchemaPath (flexibleLookup (some cat) refPath0).1 = false ∨
      (catFind cat (flexibleLookup (some cat) refPath0).1).isSome = true := by
    rcases hfst with heq | hsome
    · refine Or.inl ?_
      rw [heq]
      exact h2'
    · exact Or.inr hsome
  rcases hlk2 : (flexibleLookup (some cat) refPath0).2 with _ | refSchema
  · simp only [hlk2] at hr
    cases List.mem_singleton.mp hr
    refine ⟨?_, hdisj⟩
    show isPrimitiveSchema ((catFind cat (flexibleLookup (some cat) refPath0).1).getD .null) = false
    rw [← hsnd, hlk2]
    rfl
  · simp only [hlk2] at hr
    have hcatlk : catFind cat (flexibleLookup (some cat) refPath0).1 = some refSchema :=
      hsnd ▸ hlk2
    by_cases htr : refSchema.truthy = true
    · rw [if_pos htr] at hr
      by_cases hps : isPrimitiveSchema refSchema = true
      · rw [if_pos hps] at hr
        exact absurd hr (List.not_mem_nil r)
      rw [if_neg hps] at hr
      have hps' : isPrimitiveSchema refSchema = false := Bool.not_eq_true _ ▸ hps
      by_cases harr : isArraySchemaWithItems refSchema = true
      · rw [if_pos harr] at hr
        cases List.mem_singleton.mp hr
        refine ⟨?_, hdisj⟩
        show isPrimitiveSchema
          ((catFind cat (flexibleLookup (some cat) refPath0).1).getD .null) = false
        rw [hcatlk]
        exact hps'
      · rw [if_neg harr] at hr
        cases List.mem_singleton.mp hr
        refine ⟨?_, hdisj⟩
        show isPrimitiveSchema
          ((catFind cat (flexibleLookup (some cat) refPath0).1).getD .null) = false
        rw [hcatlk]
        exact hps'
    · rw [if_neg htr] at hr
      cases List.mem_singleton.mp hr
      refine ⟨?_, hdisj⟩
      show isPrimitiveSchema
        ((catFind cat (flexibleLookup (some cat) refPath0).1).getD .null) = false
      rw [hcatlk]
      exact falsy_not_primitive (Bool.not_eq_true _ ▸ htr)

/-- Branch 2 (array items) only emits rules with non-primitive targets. -/
theorem arrayItemsRules_target (sp : String) (cat : Catalog) (req : List String)
    (n : String) (v : Json) :
    ∀ r ∈ arrayItemsRules sp (some cat) req n v, ruleTargetOk cat r := by
  intro r hr
  simp only [arrayItemsRules] at hr
  by_cases hty : typeIs v "array" = true
  swap
  · rw [if_neg hty] at hr
    exact absurd hr (List.not_mem_nil r)
  rw [if_pos hty] at hr
  rcases hit : v.get "items" with _ | items
  · simp only [hit] at hr
    exact absurd hr (List.not_mem_nil r)
  simp only [hit] at hr
  by_cases htr : items.truthy = true
  swap
  · rw [if_neg htr] at hr
    exact absurd hr (List.not_mem_nil r)
  rw [if_pos htr] at hr
  rcases hrf : items.get "$ref" with _ | j
  · simp only [hrf] at hr
    exact absurd hr (List.not_mem_nil r)
  cases j with
  | str s =>
      simp only [hrf] at hr
      by_cases hs0 : s ≠ ""
      swap
      · rw [if_neg hs0] at hr
        exact absurd hr (List.not_mem_nil r)
      rw [if_pos hs0] at hr
      by_cases h1 : takeUntilHash s ≠ "" ∧ strEndsWith (takeUntilHash s) ".json" = true
      swap
      · rw [if_neg h1] at hr
        exact absurd hr (List.not_mem_nil r)
      rw [if_pos h1] at hr
      set refPath := resolveDirectRef sp (takeUntilHash s) with hrp0
      by_cases h2 : isPrimitiveSchemaPath refPath = true
      · rw [if_pos h2] at hr
        exact absurd hr (List.not_mem_nil r)
      rw [if_neg h2] at hr
      by_cases hg : truthyOpt (catFind cat refPath) = true ∧
          isPrimitiveSchema ((catFind cat refPath).getD .null) = true
      · rw [if_pos hg] at hr
        exact absurd hr (List.not_mem_nil r)
      · rw [if_neg hg] at hr
        cases List.mem_singleton.mp hr
        exact ⟨guard_not_primitive hg, Or.inl (Bool.not_eq_true _ ▸ h2)⟩
  | null =>
      simp only [hrf] at hr
      exact absurd hr (List.not_mem_nil r)
  | bool b =>
      simp only [hrf] at hr
      exact absurd hr (List.not_mem_nil r)
  | num m =>
      simp only [hrf] at hr
      exact absurd hr (List.not_mem_nil r)
  | arr es =>
      simp only [hrf] at hr
      exact absurd hr (List.not_mem_nil r)
  | obj fs =>
      simp only [hrf] at hr
      exact absurd hr (List.not_mem_nil r)

/-- The pattern-properties loop only emits rules with non-primitive targets. -/
theorem patternLoop_target (sp : String) (cat : Catalog) (req : List String)
    (n : String) :
    ∀ es, ∀ r ∈ patternLoop sp (some cat) req n es, ruleTargetOk cat r := by
  intro es
  induction es with
  | nil =>
      intro r hr
      exact absurd hr (List.not_mem_nil r)
  | cons e rest ih =>
      intro r hr
      rw [patternLoop] at hr
      rcases hrf : e.2.get "$ref" with _ | j
      · simp only [hrf] at hr
        exact ih r hr
      cases j with
      | str s =>
          simp only [hrf] at hr
          by_cases hs0 : s ≠ ""
          swap
          · rw [if_neg hs0] at hr
            exact ih r hr
          rw [if_pos hs0] at hr
          by_cases h1 : takeUntilHash s ≠ "" ∧ strEndsWith (takeUntilHash s) ".json" = true
          swap
          · rw [if_neg h1] at hr
            exact ih r hr
          rw [if_pos h1] at hr
          set refPath0 := resolveDirectRef sp (takeUntilHash s) with hrp0
          by_cases h2 : isPrimitiveSchemaPath refPath0 = true
          · rw [if_pos h2] at hr
            exact ih r hr
          rw [if_neg h2] at hr
          have h2' : isPrimitiveSchemaPath refPath0 = false := Bool.not_eq_true _ ▸ h2
          have hsnd := flexibleLookup_snd cat refPath0
          have hfst := flexibleLookup_fst cat refPath0
          by_cases hg : truthyOpt (flexibleLookup (some cat) refPath0).2 = true ∧
              isPrimitiveSchema ((flexibleLookup (some cat) refPath0).2.getD .null) = true
          · rw [if_pos hg] at hr
            exact ih r hr
          · rw [if_neg hg] at hr
            cases List.mem_singleton.mp hr
            constructor
            · show isPrimitiveSchema
                ((catFind cat (flexibleLookup (some cat) refPath0).1).getD .null) = false
              rw [← hsnd]
              exact guard_not_primitive hg
            · rcases hfst with heq | hsome
              · refine Or.inl ?_
                rw [heq]
                exact h2'
              · exact Or.inr hsome
      | null =>
          simp only [hrf] at hr
          exact ih r hr
      | bool b =>
          simp only [hrf] at hr
          exact ih r hr
      | num m =>
          simp only [hrf] at hr
          exact ih r hr
      | arr es2 =>
          simp only [hrf] at hr
          exact ih r hr
      | obj fs =>
          simp only [hrf] at hr
          exact ih r hr

/-- Branch 3 (pattern properties) only emits rules with non-primitive
targets. -/
theorem patternPropertyRules_target (sp : String) (cat : Catalog)
    (req : List String) (n : String) (v : Json) :
    ∀ r ∈ patternPropertyRules sp (some cat) req n v, ruleTargetOk cat r := by
  intro r hr
  simp only [patternPropertyRules] at hr
  repeat' split at hr
  all_goals first
    | exact absurd hr (List.not_mem_nil r)
    | exact patternLoop_target sp cat req n _ r hr

/-- All three branches of `processProperty` only emit rules with non-primitive
targets. -/
theorem processProperty_target (sp : String) (cat : Catalog) (req : List String)
    (n : String) (v : Json) :
    ∀ r ∈ processProperty sp (some cat) req n v, ruleTargetOk cat r := by
  intro r hr
  simp only [processProperty] at hr
  repeat' split at hr
  all_goals first
    | exact absurd hr (List.not_mem_nil r)
    | exact directRefRules_target sp cat req n _ r hr
    | (rcases List.mem_append.mp hr with h2 | h3
       · exact arrayItemsRules_target sp cat req n v r h2
       · exact patternPropertyRules_target sp cat req n v r h3)

/-- C4 counterexample material: a non-primitive object schema stored under a
path-primitive catalog key. -/
def c4W : Json :=
  .obj [("type", .str "object"),
        ("properties", .obj [("x", .obj [("type", .str "string")])])]

/-- The source schema of the C4 counterexample: one direct-`$ref` property
whose resolved path is absent from the catalog. -/
def c4S : Json :=
  .obj [("properties", .obj [("p", .obj [("$ref", .str "./widget.json")])])]

/-- The catalog of the C4 counterexample: the only key is path-primitive. -/
def c4Cat : Catalog := [("lib/primitives/a/widget.json", c4W)]

/-- C4 counterexample: the resolved ref path `a/widget.json` passes the path
heuristic, but the flexible suffix match rewrites the target to the catalog key
`lib/primitives/a/widget.json`, which is primitive by the path heuristic; the
heuristic is not re-checked after the rewrite, so the emitted rule targets a
path-primitive key. -/
theorem getSchemaConnectionRules_primitive_path_counterexample :
    getSchemaConnectionRules c4S "a/main.schema.json" (some c4Cat) =
      [⟨"p", "lib/primitives/a/widget.json", .one, false⟩] ∧
    isPrimitiveSchemaPath "lib/primitives/a/widget.json" = true :=
  ⟨rfl, rfl⟩

/-- C4 (amended: with a catalog supplied, every emitted rule's target is
non-primitive by content — the catalog schema at the target path, if any, is
never content-primitive — and is non-primitive by the filename/directory
heuristic unless the flexible suffix match rewrote the target to an existing
catalog key, whose path-primitivity is not re-checked). -/
theorem getSchemaConnectionRules_no_primitive_target (schema : Json)
    (schemaPath : String) (cat : Catalog) :
    ∀ r ∈ getSchemaConnectionRules schema schemaPath (some cat),
      isPrimitiveSchema ((catFind cat r.targetSchemaPath).getD .null) = false ∧
      (isPrimitiveSchemaPath r.targetSchemaPath = false ∨
       (catFind cat r.targetSchemaPath).isSome = true) := by
  intro r hr
  unfold getSchemaConnectionRules at hr
  rcases List.mem_flatMap.mp hr with ⟨e, he, hre⟩
  exact processProperty_target schemaPath cat (requiredSet schema) e.1 e.2 r hre

/-- C4 witness: the invariant applied to the concrete rule produced by the
counterexample catalog — its target has a non-content-primitive catalog schema
and is a genuine catalog key. -/
theorem getSchemaConnectionRules_no_primitive_target_witness :
    isPrimitiveSchema ((catFind c4Cat
        (ConnectionRule.mk "p" "lib/primitives/a/widget.json" .one false).targetSchemaPath).getD
        .null) = false ∧
    (isPrimitiveSchemaPath
        (ConnectionRule.mk "p" "lib/primitives/a/widget.json" .one false).targetSchemaPath = false ∨
     (catFind c4Cat
        (ConnectionRule.mk "p" "lib/primitives/a/widget.json" .one false).targetSchemaPath).isSome =
       true) :=
  getSchemaConnectionRules_no_primitive_target c4S "a/main.schema.json" c4Cat
    ⟨"p", "lib/primitives/a/widget.json", .one, false⟩
    (by rw [show getSchemaConnectionRules c4S "a/main.schema.json" (some c4Cat) =
        [⟨"p", "lib/primitives/a/widget.json", .one, false⟩] from rfl]
        exact List.mem_singleton.mpr rfl)

/-! ### C5: cycle safety of the export builder -/

/-- Any two fuel values exceeding the number of unvisited nodes give the same
result: the fuel-indexed embedding stabilises, which is the termination
argument of the source (`visited` grows on every recursive call). -/
theorem buildObject_fuel_adequate (ctx : BCtx) :
    ∀ f1 f2 nodeId visited, unvisitedCount ctx.nodes visited < f1 →
      unvisitedCount ctx.nodes visited < f2 →
      buildObject f1 ctx nodeId visited = buildObject f2 ctx nodeId visited := by
  intro f1
  induction f1 with
  | zero =>
      intro f2 n v h1 h2
      exact absurd h1 (Nat.not_lt_zero _)
  | succ f ih =>
      intro f2 n visited h1 h2
      cases f2 with
      | zero => exact absurd h2 (Nat.not_lt_zero _)
      | succ g =>
          simp only [buildObject]
          by_cases hc : visited.contains n = true
          · rw [if_pos hc, if_pos hc]
          · rw [if_neg hc, if_neg hc]
            rcases hf : ctx.nodes.find? (fun x => x.id == n) with _ | node
            · simp only [hf]
            · simp only [hf]
              rcases hsp : node.schemaPath with _ | sp
              · simp only [hsp]
              · simp only [hsp]
                by_cases hsp0 : sp = ""
                · rw [if_pos hsp0, if_pos hsp0]
                · rw [if_neg hsp0, if_neg hsp0]
                  rcases hcat : catFind ctx.schemas sp with _ | schema
                  · simp only [hcat]
                  · simp only [hcat]
                    by_cases htr : ¬ schema.truthy = true
                    · rw [if_pos htr, if_pos htr]
                    · rw [if_neg htr, if_neg htr]
                      have hlt : unvisitedCount ctx.nodes (n :: visited) <
                          unvisitedCount ctx.nodes visited :=
                        unvisitedCount_cons_lt ctx.nodes visited n node hf hc
                      have hrec : ∀ tgt vis2,
                          buildObject f ctx tgt (vis2 ++ (n :: visited)) =
                          buildObject g ctx tgt (vis2 ++ (n :: visited)) := by
                        intro tgt vis2
                        have hle := unvisitedCount_append_le ctx.nodes (n :: visited) vis2
                        have hb1 : unvisitedCount ctx.nodes (vis2 ++ (n :: visited)) < f :=
                          lt_of_le_of_lt hle (lt_of_lt_of_le hlt (Nat.lt_succ_iff.mp h1))
                        have hb2 : unvisitedCount ctx.nodes (vis2 ++ (n :: visited)) < g :=
                          lt_of_le_of_lt hle (lt_of_lt_of_le hlt (Nat.lt_succ_iff.mp h2))
                        exact ih g tgt (vis2 ++ (n :: visited)) hb1 hb2
                      simp only [hrec]

/-- A node already in `visited` builds to `null` and leaves the set
untouched, whatever the fuel. -/
theorem buildObject_revisit (fuel : Nat) (ctx : BCtx) (nodeId : String)
    (visited : List String) (h : visited.contains nodeId = true) :
    buildObject fuel ctx nodeId visited = (none, []) := by
  cases fuel with
  | zero => rfl
  | succ f =>
      rw [buildObject]
      rw [if_pos h]

theorem buildObjectFromInstance_revisit (fuel : Nat) (ctx : BCtx) (nodeId : String)
    (visited : List String) (h : visited.contains nodeId = true) :
    buildObjectFromInstance fuel ctx nodeId visited = (none, visited) := by
  simp only [buildObjectFromInstance]
  rw [buildObject_revisit fuel ctx nodeId visited h]
  rfl

/-- The cyclic catalog of the C5 demonstration: `a` has a `one` ref to `b` and
`b` a `one` ref back to `a`. -/
def cycA : Json := .obj [("properties", .obj [("b", .obj [("$ref", .str "b.schema.json")])])]

/-- The second schema of the cycle. -/
def cycB : Json := .obj [("properties", .obj [("a", .obj [("$ref", .str "a.schema.json")])])]

/-- The cyclic export catalog. -/
def cycCat : Catalog := [("a.schema.json", cycA), ("b.schema.json", cycB)]

/-- The two nodes of the cyclic graph. -/
def cycNodes : List BNode :=
  [⟨"a-1", some "a.schema.json", []⟩, ⟨"b-1", some "b.schema.json", []⟩]

/-- The connection cycle A→B→A. -/
def cycEdges : List BEdge := [⟨"a-1", "b-1", some "b"⟩, ⟨"b-1", "a-1", some "a"⟩]

/-- The export context of the cyclic graph. -/
def cycCtx : BCtx := ⟨cycNodes, cycEdges, cycCat, false⟩

/-- A leaf schema with no connection properties. -/
def shareT : Json := .obj [("properties", .obj [])]

/-- A schema with two `one` refs to the same target (visited-set sharing). -/
def shareS : Json :=
  .obj [("properties", .obj [("x", .obj [("$ref", .str "t.schema.json")]),
                             ("y", .obj [("$ref", .str "t.schema.json")])])]

/-- Context in which `s-1` connects to `t-1` through both `one` properties. -/
def shareCtx : BCtx :=
  ⟨[⟨"s-1", some "s.schema.json", []⟩, ⟨"t-1", some "t.schema.json", []⟩],
   [⟨"s-1", "t-1", some "x"⟩, ⟨"s-1", "t-1", some "y"⟩],
   [("s.schema.json", shareS), ("t.schema.json", shareT)], false⟩

/-- A schema with one `many` array property of refs. -/
def copyM : Json :=
  .obj [("properties", .obj [("xs", .obj [("type", .str "array"),
         ("items", .obj [("$ref", .str "t.schema.json")])])])]

/-- Context in which `m-1` connects to `t-1` twice through the same `many`
property. -/
def copyCtx : BCtx :=
  ⟨[⟨"m-1", some "m.schema.json", []⟩, ⟨"t-1", some "t.schema.json", []⟩],
   [⟨"m-1", "t-1", some "xs"⟩, ⟨"m-1", "t-1", some "xs"⟩],
   [("m.schema.json", copyM), ("t.schema.json", shareT)], false⟩

/-- C5: the export builder is cycle-safe.  (i) Building an instance already in
the `visited` set of the current traversal yields `null` and no recursion,
whatever the fuel; (ii) the fuel-indexed embedding stabilises as soon as the
fuel exceeds the number of unvisited nodes, so `exportToJson` terminates on
every finite graph with the stable value; (iii) on the concrete cycle A→B→A it
produces the finite value with `null` at the point of revisit; (iv) the two
`one` branches of `shareCtx` share one `visited` set, so the second ref to the
same target yields `null`; (v) the `many` branch of `copyCtx` builds every
child against a copy of the caller's set, so the same target appears in both
array slots. -/
theorem exportToJson_cycle_safe :
    (∀ fuel ctx nodeId visited, visited.contains nodeId = true →
        buildObjectFromInstance fuel ctx nodeId visited = (none, visited)) ∧
    (∀ ctx f1 f2 nodeId visited,
        unvisitedCount ctx.nodes visited < f1 → unvisitedCount ctx.nodes visited < f2 →
        buildObject f1 ctx nodeId visited = buildObject f2 ctx nodeId visited) ∧
    exportToJson 3 cycNodes cycEdges cycCat ⟨false, none⟩ =
      .arr [.obj [("b", .obj [("a", .null)])], .obj [("a", .obj [("b", .null)])]] ∧
    buildObjectFromInstance 3 shareCtx "s-1" [] =
      (some (.obj [("x", .obj []), ("y", .null)]), ["t-1", "s-1"]) ∧
    buildObjectFromInstance 3 copyCtx "m-1" [] =
      (some (.obj [("xs", .arr [.obj [], .obj []])]), ["m-1"]) := by
  refine ⟨buildObjectFromInstance_revisit, ?_, rfl, rfl, rfl⟩
  intro ctx f1 f2 nodeId visited h1 h2
  exact buildObject_fuel_adequate ctx f1 f2 nodeId visited h1 h2

/-- C5 witness: the cycle-safety theorem applied at concrete inputs — a
revisited node on the cyclic graph, and two distinct adequate fuels agreeing
there. -/
theorem exportToJson_cycle_safe_witness :
    buildObjectFromInstance 5 cycCtx "a-1" ["a-1"] = (none, ["a-1"]) ∧
    buildObject 3 cycCtx "a-1" [] = buildObject 9 cycCtx "a-1" [] := by
  have h := exportToJson_cycle_safe
  exact ⟨h.1 5 cycCtx "a-1" ["a-1"] (by decide),
         h.2.1 cycCtx 3 9 "a-1" [] (by decide) (by decide)⟩

/-! ### C6: schema matching on import -/

/-- A score never strictly beats itself under the JS comparison. -/
theorem scoreGtJS_irrefl (s : Nat × Nat) : scoreGtJS s s = false := by
  simp [scoreGtJS]

/-- If `s` strictly beats `b` and `e` does not beat `b`, then `e` does not
beat `s` (cross-multiplied rational comparison, `NaN`-aware). -/
theorem scoreGtJS_trans_false {e s b : Nat × Nat} (he : scoreGtJS e b = false)
    (hs : scoreGtJS s b = true) : scoreGtJS e s = false := by
  have hs' := hs
  unfold scoreGtJS at hs'
  simp only [Bool.and_eq_true, bne_iff_ne, ne_eq, decide_eq_true_eq] at hs'
  obtain ⟨⟨hs2, hb2⟩, hgt⟩ := hs'
  by_cases he2 : e.2 = 0
  · simp [scoreGtJS, he2]
  · have hle : e.1 * b.2 ≤ b.1 * e.2 := by
      by_contra hgt2
      push_neg at hgt2
      have hco : scoreGtJS e b = true := by
        simp only [scoreGtJS, Bool.and_eq_true, bne_iff_ne, ne_eq, decide_eq_true_eq]
        exact ⟨⟨he2, hb2⟩, hgt2⟩
      rw [hco] at he
      cases he
    have h1 : e.1 * b.2 * s.2 ≤ b.1 * e.2 * s.2 :=
      mul_le_mul_of_nonneg_right hle (Nat.zero_le _)
    have h2 : b.1 * s.2 * e.2 < s.1 * b.2 * e.2 :=
      mul_lt_mul_of_pos_right hgt (Nat.pos_of_ne_zero he2)
    have h3 : (e.1 * s.2) * b.2 < (s.1 * e.2) * b.2 := by
      calc (e.1 * s.2) * b.2 = e.1 * b.2 * s.2 := by ring
      _ ≤ b.1 * e.2 * s.2 := h1
      _ = b.1 * s.2 * e.2 := by ring
      _ < s.1 * b.2 * e.2 := h2
      _ = (s.1 * e.2) * b.2 := by ring
    have h4 : e.1 * s.2 < s.1 * e.2 := lt_of_mul_lt_mul_right h3 (Nat.zero_le _)
    have key : ¬ (e.1 * s.2 > s.1 * e.2) := lt_asymm h4
    simp [scoreGtJS, key]

/-- Once the running best is set, later folding can only replace it by
strictly better scores: whatever did not beat the old best does not beat the
final result. -/
theorem fmsGo_preserve (data : Json) :
    ∀ (l : List (String × Json)) (b0 b : String × (Nat × Nat)),
      fmsGo data l (some b0) = some b →
      ∀ x, scoreGtJS x b0.2 = false → scoreGtJS x b.2 = false := by
  intro l
  induction l with
  | nil =>
      intro b0 b h x hx
      rw [fmsGo] at h
      cases h
      exact hx
  | cons e rest ih =>
      obtain ⟨p, psch⟩ := e
      intro b0 b h x hx
      simp only [fmsGo] at h
      by_cases hq : fmsQualifies data psch = true
      · rw [if_pos hq] at h
        change fmsGo data rest (if scoreGtJS (fmsScore data psch) b0.2 = true then
          some (p, fmsScore data psch) else some b0) = some b at h
        by_cases hgt : scoreGtJS (fmsScore data psch) b0.2 = true
        · rw [if_pos hgt] at h
          exact ih _ b h x (scoreGtJS_trans_false hx hgt)
        · rw [if_neg hgt] at h
          exact ih b0 b h x hx
      · rw [if_neg hq] at h
        exact ih b0 b h x hx

/-- The final best of the catalog fold is beaten by no qualifying entry. -/
theorem fmsGo_max (data : Json) :
    ∀ (l : List (String × Json)) (best : Option (String × (Nat × Nat)))
      (b : String × (Nat × Nat)),
      fmsGo data l best = some b →
      ∀ q sch, (q, sch) ∈ l → fmsQualifies data sch = true →
        scoreGtJS (fmsScore data sch) b.2 = false := by
  intro l
  induction l with
  | nil =>
      intro best b h q sch hm
      exact absurd hm (List.not_mem_nil _)
  | cons e rest ih =>
      obtain ⟨p, psch⟩ := e
      intro best b h q sch hm hq2
      simp only [fmsGo] at h
      by_cases hq : fmsQualifies data psch = true
      · rw [if_pos hq] at h
        rcases List.mem_cons.mp hm with heq | hmem
        · obtain ⟨rfl, rfl⟩ := Prod.mk.injEq .. ▸ heq
          cases best with
          | none =>
              change fmsGo data rest (some (q, fmsScore data sch)) = some b at h
              exact fmsGo_preserve data rest _ b h _ (scoreGtJS_irrefl _)
          | some b0 =>
              change fmsGo data rest (if scoreGtJS (fmsScore data sch) b0.2 = true then
                some (q, fmsScore data sch) else some b0) = some b at h
              by_cases hgt : scoreGtJS (fmsScore data sch) b0.2 = true
              · rw [if_pos hgt] at h
                exact fmsGo_preserve data rest _ b h _ (scoreGtJS_irrefl _)
              · rw [if_neg hgt] at h
                exact fmsGo_preserve data rest b0 b h _ (Bool.not_eq_true _ ▸ hgt)
        · cases best with
          | none =>
              change fmsGo data rest (some (p, fmsScore data psch)) = some b at h
              exact ih _ b h q sch hmem hq2
          | some b0 =>
              change fmsGo data rest (if scoreGtJS (fmsScore data psch) b0.2 = true then
                some (p, fmsScore data psch) else some b0) = some b at h
              exact ih _ b h q sch hmem hq2
      · rw [if_neg hq] at h
        rcases List.mem_cons.mp hm with heq | hmem
        · obtain ⟨rfl, rfl⟩ := Prod.mk.injEq .. ▸ heq
          exact absurd hq2 hq
        · exact ih best b h q sch hmem hq2

/-- The final best of the catalog fold is either the initial best or a
qualifying entry scored by `fmsScore`. -/
theorem fmsGo_shape (data : Json) :
    ∀ (l : List (String × Json)) (best : Option (String × (Nat × Nat)))
      (b : String × (Nat × Nat)),
      fmsGo data l best = some b →
      best = some b ∨
      ∃ sch, (b.1, sch) ∈ l ∧ fmsQualifies data sch = true ∧ b.2 = fmsScore data sch := by
  intro l
  induction l with
  | nil =>
      intro best b h
      rw [fmsGo] at h
      exact Or.inl h
  | cons e rest ih =>
      obtain ⟨p, psch⟩ := e
      intro best b h
      simp only [fmsGo] at h
      by_cases hq : fmsQualifies data psch = true
      · rw [if_pos hq] at h
        cases best with
        | none =>
            change fmsGo data rest (some (p, fmsScore data psch)) = some b at h
            rcases ih _ b h with heq | ⟨sch, hmem, hq2, hsc⟩
            · obtain rfl := (Option.some.inj heq).symm
              exact Or.inr ⟨psch, List.mem_cons_self _ _, hq, rfl⟩
            · exact Or.inr ⟨sch, List.mem_cons_of_mem _ hmem, hq2, hsc⟩
        | some b0 =>
            change fmsGo data rest (if scoreGtJS (fmsScore data psch) b0.2 = true then
              some (p, fmsScore data psch) else some b0) = some b at h
            by_cases hgt : scoreGtJS (fmsScore data psch) b0.2 = true
            · rw [if_pos hgt] at h
              rcases ih _ b h with heq | ⟨sch, hmem, hq2, hsc⟩
              · obtain rfl := (Option.some.inj heq).symm
                exact Or.inr ⟨psch, List.mem_cons_self _ _, hq, rfl⟩
              · exact Or.inr ⟨sch, List.mem_cons_of_mem _ hmem, hq2, hsc⟩
            · rw [if_neg hgt] at h
              rcases ih _ b h with heq | ⟨sch, hmem, hq2, hsc⟩
              · exact Or.inl heq
              · exact Or.inr ⟨sch, List.mem_cons_of_mem _ hmem, hq2, hsc⟩
      · rw [if_neg hq] at h
        rcases ih best b h with heq | ⟨sch, hmem, hq2, hsc⟩
        · exact Or.inl heq
        · exact Or.inr ⟨sch, List.mem_cons_of_mem _ hmem, hq2, hsc⟩

/-- Soundness of `findMatchingSchema`: a returned match is a qualifying
catalog entry, scored by `fmsScore`, with score at least one half, beaten by
no qualifying entry. -/
theorem findMatchingSchema_sound (data : Json) (schemas : Catalog) (p : String)
    (s : Nat × Nat) (h : findMatchingSchema data schemas = some (p, s)) :
    scoreGeHalfJS s = true ∧
    (∃ sch, (p, sch) ∈ schemas ∧ fmsQualifies data sch = true ∧ s = fmsScore data sch) ∧
    ∀ q sch, (q, sch) ∈ schemas → fmsQualifies data sch = true →
      scoreGtJS (fmsScore data sch) s = false := by
  unfold findMatchingSchema at h
  rcases hgo : fmsGo data schemas none with _ | b
  · simp only [hgo] at h
    cases h
  simp only [hgo] at h
  by_cases hh : scoreGeHalfJS b.2 = true
  · rw [if_pos hh] at h
    obtain rfl := Option.some.inj h
    refine ⟨hh, ?_, ?_⟩
    · rcases fmsGo_shape data schemas none (p, s) hgo with heq | ⟨sch, hmem, hq, hsc⟩
      · cases heq
      · exact ⟨sch, hmem, hq, hsc⟩
    · intro q sch hm hq
      exact fmsGo_max data schemas none (p, s) hgo q sch hm hq
  · rw [if_neg hh] at h
    cases h

/-- C6 demo material: a data object matching no schema. -/
def impBad : Json := .obj [("zzz", .num 1)]

/-- C6 demo material: a data object matching the user schema. -/
def impGood : Json := .obj [("name", .str "Al")]

/-- C6 demo material: the user schema. -/
def impUser : Json :=
  .obj [("type", .str "object"),
        ("properties", .obj [("name", .obj [("type", .str "string")])]),
        ("required", .arr [.str "name"])]

/-- C6 demo material: the import catalog. -/
def impCat : Catalog := [("a/user.schema.json", impUser)]

/-- C6: `findMatchingSchema` returns a path only for a qualifying catalog
schema (object-typed, with properties, all required members present in the
data), scored as `|data keys ∩ schema props| / max(|data keys|, |schema
props|)` over non-metadata keys, maximal among qualifying schemas under the JS
comparison and at least `0.5`; and `importFromJson` records an error for an
object no schema matches while continuing with its siblings (the unmatched
first array member is reported, the second is still imported). -/
theorem findMatchingSchema_spec :
    (∀ data schemas p s, findMatchingSchema data schemas = some (p, s) →
        scoreGeHalfJS s = true ∧
        (∃ sch, (p, sch) ∈ schemas ∧ fmsQualifies data sch = true ∧
          s = fmsScore data sch) ∧
        (∀ q sch, (q, sch) ∈ schemas → fmsQualifies data sch = true →
          scoreGtJS (fmsScore data sch) s = false)) ∧
    findMatchingSchema impBad impCat = none ∧
    importFromJson 5 (.arr [impBad, impGood]) impCat (100, 100) (fun x => 0) =
      ⟨false,
       [⟨"user-1", (100, 380), "a/user.schema.json", "user", [("name", .str "Al")]⟩],
       [], [impBad]⟩ := by
  refine ⟨?_, rfl, rfl⟩
  intro data schemas p s h
  exact findMatchingSchema_sound data schemas p s h

/-- C6 witness: the soundness clause applied to the concrete match of
`impGood` against the catalog. -/
theorem findMatchingSchema_spec_witness :
    scoreGeHalfJS (1, 1) = true ∧
    (∃ sch, ("a/user.schema.json", sch) ∈ impCat ∧ fmsQualifies impGood sch = true ∧
      (1, 1) = fmsScore impGood sch) ∧
    (∀ q sch, (q, sch) ∈ impCat → fmsQualifies impGood sch = true →
      scoreGtJS (fmsScore impGood sch) (1, 1) = false) :=
  findMatchingSchema_spec.1 impGood impCat "a/user.schema.json" (1, 1) rfl

end JschemaDev
